import Mathlib

/-!
# Verification of `bipartitematching.py` (enumeration of all maximum matchings)

Shallow embedding of the list-based implementation (`formDirected`,
`enumMaximumMatching`, `enumMaximumMatchingIter`) of the repository
`Xunius/bipartite_matching`, together with proofs about it.

Modelling conventions:
* Vertices are natural numbers.  A graph carries its node list, its
  `bipartite` attribute (a natural number per node; the source only ever
  tests `== 0`) and its edge list, mirroring a `networkx` undirected graph
  (each undirected edge is stored once, in insertion orientation).
* Python lists of edge tuples become `List (ℕ × ℕ)`.
* External `networkx`/`scipy` collaborators (`hopcroft_karp_matching`,
  `nx.simple_cycles`, `nx.single_source_shortest_path`, `nx.isolates`) are
  not part of the repository source; they are modelled from the spec
  (sections 4.2, 4.3, 6 of the spec), with deterministic tie-breaking as the
  spec recommends.
* The recursion of `enumMaximumMatchingIter` is embedded with an explicit
  fuel parameter returning `Option`; `none` means the fuel ran out.  A
  separate theorem shows fuel `|E| + 1` always suffices, which is exactly
  the termination argument of the spec (recursion depth bounded by the edge
  count).
-/

/-- An undirected graph in the style of a `networkx` graph as used by the
source: a node list, a `bipartite` attribute for every node, and a list of
undirected edges (each stored once, in insertion orientation). -/
structure Graph where
  nodes : List ℕ
  bip : ℕ → ℕ
  edges : List (ℕ × ℕ)

namespace Graph

/-- `g.remove_node v` as in `networkx`: drops the node and every incident
edge.  Mirrors `g_plus.remove_node(e[0])` / `remove_node(e[1])` in the
source (lines 194-195, 236-237). -/
def removeNode (g : Graph) (v : ℕ) : Graph :=
  { nodes := g.nodes.erase v
    bip := g.bip
    edges := g.edges.filter (fun e => decide (e.1 ≠ v ∧ e.2 ≠ v)) }

/-- `g.remove_edge u v` as in `networkx`: drops the undirected edge
`{u, v}` (stored in either orientation), keeping all nodes.  Mirrors
`g_minus.remove_edge(e[0],e[1])` in the source (lines 197, 238). -/
def removeEdge (g : Graph) (u v : ℕ) : Graph :=
  { nodes := g.nodes
    bip := g.bip
    edges := g.edges.filter (fun e => decide (¬(e = (u, v) ∨ e = (v, u)))) }

end Graph

/-- The arc that `formDirected` adds for a single undirected edge `ee` of
`g` (source lines 54-64): a matched edge is directed from the
`bipartite == 0` endpoint to the other one, an unmatched edge the other way
round.  Membership of `ee` in the matching is tested in both orientations,
as in `if ee in match or (ee[1],ee[0]) in match`. -/
def orientArc (g : Graph) (mtch : List (ℕ × ℕ)) (ee : ℕ × ℕ) : ℕ × ℕ :=
  if ee ∈ mtch ∨ (ee.2, ee.1) ∈ mtch then
    (if g.bip ee.1 = 0 then ee else (ee.2, ee.1))
  else
    (if g.bip ee.1 = 0 then (ee.2, ee.1) else ee)

/-- `formDirected(g, match)` (source lines 39-66): the exchange digraph,
one arc per undirected edge of `g`. -/
def formDirected (g : Graph) (mtch : List (ℕ × ℕ)) : List (ℕ × ℕ) :=
  g.edges.map (orientArc g mtch)

/-- The arcs of a closed walk along the vertex list `c`: the source closes
the `networkx` cycle with `cycle.append(cycle[0])` and then pairs adjacent
entries with `zip` (lines 210-211). -/
def cycArcs : List ℕ → List (ℕ × ℕ)
  | [] => []
  | v :: rest => (v :: rest).zip (rest ++ [v])

/-- The arcs along an (open) path given as a vertex list, mirroring
`zip(len2path[:-1], len2path[1:])` (source line 170). -/
def pathArcs (p : List ℕ) : List (ℕ × ℕ) := p.zip p.tail

/-- Depth-first search for a simple directed cycle through `target`,
following arcs of `d` in list order.  `visited` holds the vertices of the
current search path (including `target`).

Modelled from the spec: this is the deterministic Cycle Finder of spec
section 4.2, standing in for the external `nx.simple_cycles` call of source
line 126 (only the first cycle of that list is ever used, line 209). -/
def findCycleAux (d : List (ℕ × ℕ)) (target : ℕ) :
    ℕ → ℕ → List ℕ → Option (List ℕ)
  | 0, _, _ => none
  | fuel + 1, cur, visited =>
      (d.filter (fun a => a.1 == cur)).findSome? (fun a =>
        if a.2 = target then some [cur]
        else if a.2 ∈ visited then none
        else (findCycleAux d target fuel a.2 (a.2 :: visited)).map (cur :: ·))

/-- Modelled from the spec: the deterministic Cycle Finder (spec 4.2),
replacing the external `list(nx.simple_cycles(d))` of source line 126.
It returns one simple directed cycle of `d` (as a vertex list, first vertex
not repeated at the end, exactly the format the source receives from
`networkx`) or `none` when `d` is acyclic.  Starts are tried in arc-list
order, so the choice is deterministic. -/
def findCycleModel (d : List (ℕ × ℕ)) : Option (List ℕ) :=
  (d.map Prod.fst).findSome? (fun v => findCycleAux d v (d.length + 1) v [v])

/-- Modelled from the spec: the forward length-2 path search from `v`
(spec 4.3 step 2), standing in for the external
`nx.single_source_shortest_path(d, v, cutoff=2)` of source line 145
followed by the filter `len(vv)==3` (line 146).  A target at distance at
most 1 from `v` is excluded, since a breadth-first shortest path to it has
fewer than three vertices. -/
def len2pathsModel (d : List (ℕ × ℕ)) (v : ℕ) : List (List ℕ) :=
  ((d.filter (fun a => a.1 == v)).map (fun a =>
      ((d.filter (fun b => b.1 == a.2)).filter (fun b =>
          !(b.2 == v) && !(b.2 == a.2) && !((v, b.2) ∈ d : Bool))).map
        (fun b => [v, a.2, b.2]))).flatten

/-- `v` has no incident edge in `g`; models membership in `nx.isolates(g)`
(source line 144). -/
def isolatedIn (g : Graph) (v : ℕ) : Bool :=
  g.edges.all (fun e => !(e.1 == v || e.2 == v))

/-- The `while True` loop of source lines 140-164: walk the uncovered
vertices in order; for the first non-isolated one admitting a length-2
directed path (forward, else in the reversed digraph, then reversed back by
`len2path[::-1]`, line 169), return that path; if none does, the branch
terminates (`return all_matches`, modelled by `none`). -/
def findFeasiblePath (g : Graph) (d : List (ℕ × ℕ)) :
    List ℕ → Option (List ℕ)
  | [] => none
  | u :: rest =>
      if isolatedIn g u then findFeasiblePath g d rest
      else
        match (len2pathsModel d u).head? with
        | some p => some p
        | none =>
            match (len2pathsModel (d.map (fun a => (a.2, a.1))) u).head? with
            | some p => some p.reverse
            | none => findFeasiblePath g d rest

/-- The new-matching construction of source lines 172-179 and (verbatim
identical code) lines 214-221: walk the arcs of the exchange digraph `d`;
an arc on the selected cycle/path is toggled (kept, reversed, only when its
head is on side 0, i.e. it was an unmatched arc), any other arc is kept
exactly when its tail is on side 0 (i.e. it was a matched arc). -/
def toggleNewMatch (g : Graph) (d : List (ℕ × ℕ)) (onArcs : List (ℕ × ℕ)) :
    List (ℕ × ℕ) :=
  d.filterMap (fun ee =>
    if ee ∈ onArcs then
      (if g.bip ee.2 = 0 then some (ee.2, ee.1) else none)
    else
      (if g.bip ee.1 = 0 then some ee else none))

/-- The uncovered vertices (source lines 131-133): nodes of `g` that are
an endpoint of no matching pair. -/
def uncovList (g : Graph) (mtch : List (ℕ × ℕ)) : List ℕ :=
  g.nodes.filter (fun v => decide (∀ p ∈ mtch, p.1 ≠ v ∧ p.2 ≠ v))

/-- `enumMaximumMatchingIter` (source lines 104-247), with explicit fuel.
`none` means the fuel ran out before the recursion terminated; a separate
theorem shows fuel `g.edges.length + 1` always suffices.

The two `(mtch.filter ...).head?` fallback branches returning the
accumulator correspond to states where the source would raise an
`IndexError` on `list(e)[0]` (lines 189, 231); they are unreachable for
well-formed inputs. -/
def enumMaximumMatchingIterO :
    ℕ → Graph → List (ℕ × ℕ) → List (List (ℕ × ℕ)) → List (ℕ × ℕ) →
      Option (List (List (ℕ × ℕ)))
  | 0, _, _, _, _ => none
  | fuel + 1, g, mtch, all_matches, add_e =>
    let d := formDirected g mtch
    match findCycleModel d with
    | some cycle =>
        -- source lines 207-245
        let new_match := toggleNewMatch g d (cycArcs cycle) ++ add_e
        let all2 := all_matches ++ [new_match]
        match (mtch.filter (fun p => p ∈ cycArcs cycle)).head? with
        | none => some all2
        | some e =>
            let g_minus := g.removeEdge e.1 e.2
            let g_plus := (g.removeNode e.1).removeNode e.2
            do
              let r1 ← enumMaximumMatchingIterO fuel g_minus new_match all2 add_e
              enumMaximumMatchingIterO fuel g_plus mtch r1 (e :: add_e)
    | none =>
        -- source lines 128-204
        match findFeasiblePath g d (uncovList g mtch) with
        | none => some all_matches
        | some len2path =>
            let new_match := toggleNewMatch g d (pathArcs len2path) ++ add_e
            let all2 := all_matches ++ [new_match]
            match ((pathArcs len2path).filter (fun p => p ∉ mtch)).head? with
            | none => some all2
            | some e =>
                let g_minus := g.removeEdge e.1 e.2
                let g_plus := (g.removeNode e.1).removeNode e.2
                do
                  let r1 ← enumMaximumMatchingIterO fuel g_minus mtch all2 add_e
                  enumMaximumMatchingIterO fuel g_plus new_match r1 (e :: add_e)

/-- `enumMaximumMatchingIter` with the always-sufficient fuel
`g.edges.length + 1`; the default (never reached) is the unchanged
accumulator. -/
def enumMaximumMatchingIter (g : Graph) (mtch : List (ℕ × ℕ))
    (all_matches : List (List (ℕ × ℕ))) (add_e : List (ℕ × ℕ)) :
    List (List (ℕ × ℕ)) :=
  (enumMaximumMatchingIterO (g.edges.length + 1) g mtch all_matches add_e).getD all_matches

/-- A list of vertex pairs is a matching: no two pairs share a vertex, and
no pair is a self-loop. -/
def isMatching (m : List (ℕ × ℕ)) : Prop :=
  m.Pairwise (fun p q => p.1 ≠ q.1 ∧ p.1 ≠ q.2 ∧ p.2 ≠ q.1 ∧ p.2 ≠ q.2) ∧
    ∀ p ∈ m, p.1 ≠ p.2

instance (m : List (ℕ × ℕ)) : Decidable (isMatching m) := by
  unfold isMatching; infer_instance

/-- Every edge of `g`, re-oriented to put the `bipartite == 0` endpoint
first.  Used by the brute-force maximum-matching model. -/
def candEdges (g : Graph) : List (ℕ × ℕ) :=
  g.edges.map (fun e => if g.bip e.1 = 0 then e else (e.2, e.1))

/-- Modelled from the spec: a maximum matching of `g`, computed by brute
force (first sublist of `candEdges g` of maximal length that is a
matching).  This models the matching the external Initial Maximum Matching
provider (spec section 6; `bipartite.hopcroft_karp_matching`, source line
86) finds; the provider's contract is that the result is a valid matching
of maximum cardinality. -/
def bruteMaxMatching (g : Graph) : List (ℕ × ℕ) :=
  ((candEdges g).sublists.filter (fun c => decide (isMatching c))).foldl
    (fun best c => if best.length < c.length then c else best) []

/-- The maximum matching number of `g`: the largest length of a sublist of
its (left-oriented) edges that is a matching. -/
def nuMax (g : Graph) : ℕ :=
  (((candEdges g).sublists.filter (fun c => decide (isMatching c))).map
    List.length).foldl max 0

/-- Modelled from the spec: the vertex-to-partner map that
`bipartite.hopcroft_karp_matching` returns (source line 86).  The
`networkx` function returns a dictionary containing each matched pair in
both directions; the model lists the brute-force maximum matching in both
orientations. -/
def hopcroft_karp_matching_model (g : Graph) : List (ℕ × ℕ) :=
  bruteMaxMatching g ++ (bruteMaxMatching g).map (fun p => (p.2, p.1))

/-- `enumMaximumMatching` (source lines 70-99): get a maximum matching from
the external provider, keep the pairs whose key has `bipartite` attribute 0
(lines 89-93), seed the result list with it and enter the recursion with
`add_e = None` (modelled by `[]`). -/
def enumMaximumMatching (g : Graph) : List (List (ℕ × ℕ)) :=
  let mtch := (hopcroft_karp_matching_model g).filter (fun kv => g.bip kv.1 == 0)
  let all_matches := [mtch]
  enumMaximumMatchingIter g mtch all_matches []

/-- The unordered-pair normal form of an edge, for comparing matchings as
edge sets. -/
def normEdge (p : ℕ × ℕ) : ℕ × ℕ := (min p.1 p.2, max p.1 p.2)

/-- The edge set of a matching (as a finite set of unordered pairs). -/
def edgeFS (m : List (ℕ × ℕ)) : Finset (ℕ × ℕ) := (m.map normEdge).toFinset

/-- Well-formed bipartite input graph: distinct nodes, every edge joins a
side-0 node to a side-nonzero node, edge endpoints are nodes, and no edge
is listed twice (in either orientation). -/
structure WF (g : Graph) : Prop where
  nodes_nodup : g.nodes.Nodup
  cross : ∀ e ∈ g.edges, (g.bip e.1 = 0 ∧ g.bip e.2 ≠ 0) ∨ (g.bip e.1 ≠ 0 ∧ g.bip e.2 = 0)
  ends_mem : ∀ e ∈ g.edges, e.1 ∈ g.nodes ∧ e.2 ∈ g.nodes
  edges_nodup : (g.edges.map normEdge).Nodup

/-- The pair `p` is an edge of `g` (stored in either orientation). -/
def inG (g : Graph) (p : ℕ × ℕ) : Prop := p ∈ g.edges ∨ (p.2, p.1) ∈ g.edges

instance (g : Graph) (p : ℕ × ℕ) : Decidable (inG g p) := by
  unfold inG; infer_instance

/-- The entries of `mtch` that are edges of `g` (the effective matching of
the current subgraph; entries on removed vertices are ignored by every
operation of the source that consults `g`). -/
def matchInG (g : Graph) (mtch : List (ℕ × ℕ)) : List (ℕ × ℕ) :=
  mtch.filter (fun p => decide (inG g p))

/-- Two vertex pairs sharing no vertex. -/
def pairDisj (p q : ℕ × ℕ) : Prop :=
  p.1 ≠ q.1 ∧ p.1 ≠ q.2 ∧ p.2 ≠ q.1 ∧ p.2 ≠ q.2

lemma pairDisj_symm : Symmetric pairDisj := by
  intro p q h
  obtain ⟨h1, h2, h3, h4⟩ := h
  exact ⟨Ne.symm h1, Ne.symm h3, Ne.symm h2, Ne.symm h4⟩

lemma isMatching_def (m : List (ℕ × ℕ)) :
    isMatching m ↔ m.Pairwise pairDisj ∧ ∀ p ∈ m, p.1 ≠ p.2 := Iff.rfl

lemma normEdge_swap (p : ℕ × ℕ) : normEdge (p.2, p.1) = normEdge p := by
  simp [normEdge, min_comm, max_comm]

lemma normEdge_eq_cases {p q : ℕ × ℕ} (h : normEdge p = normEdge q) :
    p = q ∨ p = (q.2, q.1) := by
  simp only [normEdge, Prod.ext_iff, Prod.mk.injEq] at h ⊢
  omega

lemma not_pairDisj_self {p : ℕ × ℕ} : ¬ pairDisj p p := by
  intro h; exact h.1 rfl

lemma isMatching_nodup {m : List (ℕ × ℕ)} (h : isMatching m) : m.Nodup := by
  refine h.1.imp ?_
  intro p q hpq
  intro he
  exact not_pairDisj_self (he ▸ hpq)

/-- A matching has entries with pairwise distinct underlying unordered
edges. -/
lemma isMatching_normEdge_nodup {m : List (ℕ × ℕ)} (h : isMatching m) :
    (m.map normEdge).Nodup := by
  refine (isMatching_nodup h).map_on ?_
  intro p hp q hq hpq
  by_contra hne
  have hd := (h.1.forall pairDisj_symm) hp hq hne
  rcases normEdge_eq_cases hpq with rfl | h2
  · exact hne rfl
  · exact hd.2.1 (by rw [h2])

lemma isMatching_sublist {m m' : List (ℕ × ℕ)} (hs : m'.Sublist m)
    (h : isMatching m) : isMatching m' :=
  ⟨h.1.sublist hs, fun p hp => h.2 p (hs.mem hp)⟩

/-- An entry of a matching is the unique entry covering each of its
vertices. -/
lemma isMatching_unique {m : List (ℕ × ℕ)} (h : isMatching m)
    {p q : ℕ × ℕ} (hp : p ∈ m) (hq : q ∈ m) (x : ℕ)
    (hxp : x = p.1 ∨ x = p.2) (hxq : x = q.1 ∨ x = q.2) : p = q := by
  by_contra hne
  have hd := (h.1.forall pairDisj_symm) hp hq hne
  rcases hxp with rfl | rfl <;> rcases hxq with h2 | h2
  · exact hd.1 h2
  · exact hd.2.1 h2
  · exact hd.2.2.1 h2
  · exact hd.2.2.2 h2

section RemovalLemmas

lemma removeEdge_nodes (g : Graph) (u v : ℕ) : (g.removeEdge u v).nodes = g.nodes := rfl

lemma removeEdge_bip (g : Graph) (u v : ℕ) : (g.removeEdge u v).bip = g.bip := rfl

lemma removeNode_bip (g : Graph) (v : ℕ) : (g.removeNode v).bip = g.bip := rfl

lemma mem_removeEdge_edges {g : Graph} {u v : ℕ} {e : ℕ × ℕ} :
    e ∈ (g.removeEdge u v).edges ↔ e ∈ g.edges ∧ ¬(e = (u, v) ∨ e = (v, u)) := by
  simp [Graph.removeEdge, List.mem_filter]

lemma mem_removeNode_edges {g : Graph} {v : ℕ} {e : ℕ × ℕ} :
    e ∈ (g.removeNode v).edges ↔ e ∈ g.edges ∧ e.1 ≠ v ∧ e.2 ≠ v := by
  simp [Graph.removeNode, List.mem_filter]

lemma removeEdge_edges_sublist (g : Graph) (u v : ℕ) :
    ((g.removeEdge u v).edges).Sublist g.edges := List.filter_sublist _

lemma removeNode_edges_sublist (g : Graph) (v : ℕ) :
    ((g.removeNode v).edges).Sublist g.edges := List.filter_sublist _

lemma sublist_length_lt {α : Type} {l₁ l₂ : List α} (h : l₁.Sublist l₂)
    (hne : l₁ ≠ l₂) : l₁.length < l₂.length :=
  lt_of_le_of_ne h.length_le (fun he => hne (h.eq_of_length he))

lemma WF.removeEdge {g : Graph} (h : WF g) (u v : ℕ) : WF (g.removeEdge u v) where
  nodes_nodup := h.nodes_nodup
  cross := fun e he => h.cross e (mem_removeEdge_edges.mp he).1
  ends_mem := fun e he => h.ends_mem e (mem_removeEdge_edges.mp he).1
  edges_nodup :=
    h.edges_nodup.sublist ((removeEdge_edges_sublist g u v).map normEdge)

lemma WF.removeNode {g : Graph} (h : WF g) (v : ℕ) : WF (g.removeNode v) where
  nodes_nodup := h.nodes_nodup.erase v
  cross := fun e he => h.cross e (mem_removeNode_edges.mp he).1
  ends_mem := fun e he => by
    obtain ⟨he1, hne1, hne2⟩ := mem_removeNode_edges.mp he
    obtain ⟨h1, h2⟩ := h.ends_mem e he1
    exact ⟨(h.nodes_nodup.mem_erase_iff ..).mpr ⟨hne1, h1⟩,
      (h.nodes_nodup.mem_erase_iff ..).mpr ⟨hne2, h2⟩⟩
  edges_nodup :=
    h.edges_nodup.sublist ((removeNode_edges_sublist g v).map normEdge)

/-- Removing an edge that is present strictly decreases the edge count. -/
lemma removeEdge_length_lt {g : Graph} {e : ℕ × ℕ}
    (he : e ∈ g.edges ∨ (e.2, e.1) ∈ g.edges) :
    (g.removeEdge e.1 e.2).edges.length < g.edges.length := by
  refine sublist_length_lt (removeEdge_edges_sublist ..) (fun hEq => ?_)
  rcases he with he | he
  · exact (mem_removeEdge_edges.mp (hEq ▸ he)).2 (Or.inl rfl)
  · exact (mem_removeEdge_edges.mp (hEq ▸ he)).2 (Or.inr rfl)

/-- Removing both endpoints of a present edge strictly decreases the edge
count. -/
lemma removeNode_both_length_lt {g : Graph} {e : ℕ × ℕ}
    (he : e ∈ g.edges ∨ (e.2, e.1) ∈ g.edges) :
    ((g.removeNode e.1).removeNode e.2).edges.length < g.edges.length := by
  have hsub : (((g.removeNode e.1).removeNode e.2).edges).Sublist g.edges :=
    (removeNode_edges_sublist ..).trans (removeNode_edges_sublist ..)
  refine sublist_length_lt hsub (fun hEq => ?_)
  rcases he with he | he
  · have h1 := mem_removeNode_edges.mp
      (show e ∈ ((g.removeNode e.1).removeNode e.2).edges from hEq ▸ he)
    exact (mem_removeNode_edges.mp h1.1).2.1 rfl
  · have h1 := mem_removeNode_edges.mp
      (show (e.2, e.1) ∈ ((g.removeNode e.1).removeNode e.2).edges from hEq ▸ he)
    exact (mem_removeNode_edges.mp h1.1).2.2 rfl

end RemovalLemmas

/-- `a` is, in one of the two orientations, an entry of `mtch` (the
membership test of source line 55). -/
def inMatch (mtch : List (ℕ × ℕ)) (a : ℕ × ℕ) : Prop :=
  a ∈ mtch ∨ (a.2, a.1) ∈ mtch

instance (mtch : List (ℕ × ℕ)) (a : ℕ × ℕ) : Decidable (inMatch mtch a) := by
  unfold inMatch; infer_instance

/-- Every entry of `mtch` that is an edge of `g` has its side-0 endpoint
first.  This invariant holds for every matching the source threads through
the recursion. -/
def leftOriented (g : Graph) (mtch : List (ℕ × ℕ)) : Prop :=
  ∀ p ∈ mtch, inG g p → g.bip p.1 = 0

/-- `v` is covered by no entry of `mtch` (the uncovered-vertex computation
of source lines 131-133). -/
def uncoveredIn (mtch : List (ℕ × ℕ)) (v : ℕ) : Prop :=
  ∀ p ∈ mtch, p.1 ≠ v ∧ p.2 ≠ v

section FormDirectedLemmas

variable {g : Graph} {mtch : List (ℕ × ℕ)}

lemma formDirected_map_normEdge :
    (formDirected g mtch).map normEdge = g.edges.map normEdge := by
  rw [formDirected, List.map_map]
  refine List.map_congr_left (fun ee _ => ?_)
  simp only [Function.comp_apply, orientArc]
  split <;> split <;> simp [normEdge_swap]

lemma formDirected_nodup (hwf : WF g) : (formDirected g mtch).Nodup :=
  (formDirected_map_normEdge ▸ hwf.edges_nodup).of_map normEdge

lemma formDirected_normEdge_nodup (hwf : WF g) :
    ((formDirected g mtch).map normEdge).Nodup :=
  formDirected_map_normEdge ▸ hwf.edges_nodup

lemma mem_formDirected {a : ℕ × ℕ} :
    a ∈ formDirected g mtch ↔ ∃ ee ∈ g.edges, orientArc g mtch ee = a := by
  simp [formDirected, List.mem_map]

/-- Structure of an arc of the exchange digraph: it is an edge of `g`; a
matched edge yields the left-to-right arc (which is then itself an entry of
the matching, by left-orientation), an unmatched edge the right-to-left
arc. -/
lemma arc_spec (hwf : WF g) (hor : leftOriented g mtch) {a : ℕ × ℕ}
    (ha : a ∈ formDirected g mtch) :
    inG g a ∧
      ((g.bip a.1 = 0 ∧ g.bip a.2 ≠ 0 ∧ a ∈ mtch) ∨
       (g.bip a.1 ≠ 0 ∧ g.bip a.2 = 0 ∧ ¬ inMatch mtch a)) := by
  obtain ⟨ee, hee, horient⟩ := mem_formDirected.mp ha
  have hcross := hwf.cross ee hee
  by_cases hm : ee ∈ mtch ∨ (ee.2, ee.1) ∈ mtch
  · -- matched edge: arc points left-to-right
    rcases hcross with ⟨hb1, hb2⟩ | ⟨hb1, hb2⟩
    · have hma : ee ∈ mtch := by
        rcases hm with hm | hm
        · exact hm
        · exact absurd (hor _ hm (Or.inr hee)) (by simpa using hb2)
      have ha' : a = ee := by rw [← horient, orientArc, if_pos hm, if_pos hb1]
      subst ha'
      exact ⟨Or.inl hee, Or.inl ⟨hb1, hb2, hma⟩⟩
    · have hma : (ee.2, ee.1) ∈ mtch := by
        rcases hm with hm | hm
        · exact absurd (hor _ hm (Or.inl hee)) hb1
        · exact hm
      have ha' : a = (ee.2, ee.1) := by rw [← horient, orientArc, if_pos hm, if_neg hb1]
      subst ha'
      exact ⟨Or.inr hee, Or.inl ⟨hb2, hb1, hma⟩⟩
  · -- unmatched edge: arc points right-to-left
    rcases hcross with ⟨hb1, hb2⟩ | ⟨hb1, hb2⟩
    · have ha' : a = (ee.2, ee.1) := by rw [← horient, orientArc, if_neg hm, if_pos hb1]
      subst ha'
      refine ⟨Or.inr hee, Or.inr ⟨hb2, hb1, ?_⟩⟩
      intro hIn
      exact hm (hIn.symm.imp id id)
    · have ha' : a = ee := by rw [← horient, orientArc, if_neg hm, if_neg hb1]
      subst ha'
      exact ⟨Or.inl hee, Or.inr ⟨hb1, hb2, hm⟩⟩

/-- Every matching entry that is an edge of `g` occurs, as-is, as an arc of
the exchange digraph. -/
lemma matched_arc_mem (hwf : WF g) (hor : leftOriented g mtch) {p : ℕ × ℕ}
    (hp : p ∈ mtch) (hin : inG g p) : p ∈ formDirected g mtch := by
  have hb1 : g.bip p.1 = 0 := hor p hp hin
  rcases hin with hee | hee
  · refine mem_formDirected.mpr ⟨p, hee, ?_⟩
    rw [orientArc, if_pos (Or.inl hp), if_pos hb1]
  · refine mem_formDirected.mpr ⟨(p.2, p.1), hee, ?_⟩
    have hcross := hwf.cross _ hee
    have hb2 : g.bip p.2 ≠ 0 := by
      rcases hcross with ⟨h1, h2⟩ | ⟨h1, h2⟩
      · exact absurd hb1 (by simpa using h2)
      · simpa using h1
    rw [orientArc, if_pos (Or.inr hp), if_neg (by simpa using hb2)]

/-- The matched arcs of the exchange digraph are exactly the matching
entries that are edges of `g`. -/
lemma matchedArcs_perm (hwf : WF g) (hor : leftOriented g mtch)
    (hval : isMatching (matchInG g mtch)) :
    ((formDirected g mtch).filter (fun a => decide (g.bip a.1 = 0))).Perm
      (matchInG g mtch) := by
  refine List.perm_of_nodup_nodup_toFinset_eq
    ((formDirected_nodup hwf).filter _) (isMatching_nodup hval) ?_
  ext a
  simp only [List.mem_toFinset, List.mem_filter, decide_eq_true_eq, matchInG]
  constructor
  · rintro ⟨ha, hb⟩
    obtain ⟨hin, hspec⟩ := arc_spec hwf hor ha
    rcases hspec with ⟨_, _, hm⟩ | ⟨hb1, _, _⟩
    · exact ⟨hm, by simpa using hin⟩
    · exact absurd hb hb1
  · rintro ⟨hm, hin⟩
    have hin' : inG g a := by simpa using hin
    exact ⟨matched_arc_mem hwf hor hm hin', hor a hm hin'⟩

end FormDirectedLemmas

section CycleFinder

variable {d : List (ℕ × ℕ)}

/-- `c` is a nonempty simple directed cycle of `d`, in the vertex-list
format `nx.simple_cycles` yields (first vertex not repeated at the end). -/
def IsCycleOf (d : List (ℕ × ℕ)) (c : List ℕ) : Prop :=
  c ≠ [] ∧ c.Nodup ∧ List.Chain' (fun a b => (a, b) ∈ d) (c ++ [c.headI])

lemma findCycleAux_sound (t : ℕ) :
    ∀ fuel cur visited p, cur ∈ visited →
      findCycleAux d t fuel cur visited = some p →
      p ≠ [] ∧ p.headI = cur ∧
        List.Chain' (fun a b => (a, b) ∈ d) (p ++ [t]) ∧
        p.Nodup ∧ (∀ x ∈ p, x = cur ∨ x ∉ visited) := by
  intro fuel
  induction fuel with
  | zero => intro cur visited p _ h; simp [findCycleAux] at h
  | succ fuel ih =>
    intro cur visited p hcur h
    rw [findCycleAux] at h
    obtain ⟨a, ha, hfa⟩ := List.exists_of_findSome?_eq_some h
    have ha' : a ∈ d.filter (fun a => a.1 == cur) := ha
    have had : a ∈ d := (List.mem_filter.mp ha').1
    have ha1 : a.1 = cur := by
      have := (List.mem_filter.mp ha').2
      simpa using this
    by_cases ht : a.2 = t
    · rw [if_pos ht] at hfa
      obtain rfl : [cur] = p := by simpa using hfa
      refine ⟨by simp, by simp, ?_, by simp, by simp⟩
      simp only [List.cons_append, List.nil_append]
      refine List.chain'_cons'.mpr ⟨?_, by simp⟩
      intro y hy
      simp only [List.head?_cons, Option.mem_def, Option.some.injEq] at hy
      subst hy
      rw [← ha1, ← ht]
      simpa using had
    · rw [if_neg ht] at hfa
      by_cases hv : a.2 ∈ visited
      · rw [if_pos hv] at hfa; simp at hfa
      · rw [if_neg hv] at hfa
        obtain ⟨p', hp', rfl⟩ := Option.map_eq_some'.mp hfa
        obtain ⟨hne', hhead', hchain', hnodup', hfresh'⟩ :=
          ih a.2 (a.2 :: visited) p' (by simp) hp'
        refine ⟨by simp, by simp, ?_, ?_, ?_⟩
        · simp only [List.cons_append]
          refine List.chain'_cons'.mpr ⟨?_, hchain'⟩
          intro y hy
          have : y = p'.headI := by
            cases p' with
            | nil => exact absurd rfl hne'
            | cons z zs => simp only [List.cons_append, List.head?_cons,
                Option.mem_def, Option.some.injEq] at hy; simp [hy.symm]
          rw [this, hhead', ← ha1]
          simpa using had
        · refine List.nodup_cons.mpr ⟨?_, hnodup'⟩
          intro hmem
          rcases hfresh' cur hmem with rfl | hnot
          · exact hv hcur
          · exact hnot (by simp [hcur])
        · intro x hx
          rcases List.mem_cons.mp hx with rfl | hx'
          · exact Or.inl rfl
          · rcases hfresh' x hx' with rfl | hnot
            · exact Or.inr hv
            · exact Or.inr (fun hc => hnot (by simp [hc]))

/-- Soundness of the cycle finder: a returned vertex list is a simple
directed cycle of `d`. -/
lemma findCycleModel_sound {c : List ℕ} (h : findCycleModel d = some c) :
    IsCycleOf d c := by
  obtain ⟨v, _, hv⟩ := List.exists_of_findSome?_eq_some h
  obtain ⟨hne, hhead, hchain, hnodup, _⟩ :=
    findCycleAux_sound v (d.length + 1) v [v] c (by simp) hv
  exact ⟨hne, hnodup, by rwa [hhead]⟩

lemma zip_tail_of_chain' {α : Type} {R : α → α → Prop} :
    ∀ {l : List α}, List.Chain' R l → ∀ p ∈ l.zip l.tail, R p.1 p.2 := by
  intro l
  induction l with
  | nil => intro _ p hp; simp at hp
  | cons a l ih =>
    intro hchain p hp
    cases l with
    | nil => simp at hp
    | cons b t =>
      simp only [List.tail_cons, List.zip_cons_cons, List.mem_cons] at hp
      rcases hp with rfl | hp
      · exact (List.chain'_cons.mp hchain).1
      · exact ih (List.chain'_cons.mp hchain).2 p (by simpa using hp)

lemma zip_append_singleton {α : Type} :
    ∀ (l : List α) (x : α),
      (l ++ [x]).zip ((l ++ [x]).tail) = l.zip (l.tail ++ [x]) := by
  intro l
  induction l with
  | nil => intro x; simp
  | cons a l ih =>
    intro x
    cases l with
    | nil => simp
    | cons b t =>
      have := ih x
      simp only [List.cons_append, List.tail_cons, List.zip_cons_cons] at this ⊢
      rw [this]

lemma cycArcs_eq {v : ℕ} {rest : List ℕ} :
    cycArcs (v :: rest) =
      ((v :: rest) ++ [v]).zip (((v :: rest) ++ [v]).tail) := by
  rw [cycArcs, zip_append_singleton, List.tail_cons]

lemma mem_cycArcs_mem {c : List ℕ} (hc : IsCycleOf d c) :
    ∀ a ∈ cycArcs c, a ∈ d := by
  obtain ⟨hne, _, hchain⟩ := hc
  cases c with
  | nil => exact absurd rfl hne
  | cons v rest =>
    intro a ha
    rw [cycArcs_eq] at ha
    exact zip_tail_of_chain' (by simpa using hchain) a ha

lemma cycArcs_map_fst {v : ℕ} {rest : List ℕ} :
    (cycArcs (v :: rest)).map Prod.fst = v :: rest := by
  rw [cycArcs]
  exact List.map_fst_zip _ _ (by simp)

lemma cycArcs_map_snd {v : ℕ} {rest : List ℕ} :
    (cycArcs (v :: rest)).map Prod.snd = rest ++ [v] := by
  rw [cycArcs]
  exact List.map_snd_zip _ _ (by simp)

/-- Each cycle vertex is the source of exactly one cycle arc. -/
lemma cycArcs_fst_inj {c : List ℕ} (hc : c.Nodup) :
    ∀ a ∈ cycArcs c, ∀ b ∈ cycArcs c, a.1 = b.1 → a = b := by
  cases c with
  | nil => intro a ha; simp [cycArcs] at ha
  | cons v rest =>
    have : ((cycArcs (v :: rest)).map Prod.fst).Nodup := by
      rw [cycArcs_map_fst]; exact hc
    intro a ha b hb hab
    exact List.inj_on_of_nodup_map this ha hb hab

/-- Each cycle vertex is the target of exactly one cycle arc. -/
lemma cycArcs_snd_inj {c : List ℕ} (hc : c.Nodup) :
    ∀ a ∈ cycArcs c, ∀ b ∈ cycArcs c, a.2 = b.2 → a = b := by
  cases c with
  | nil => intro a ha; simp [cycArcs] at ha
  | cons v rest =>
    have : ((cycArcs (v :: rest)).map Prod.snd).Nodup := by
      rw [cycArcs_map_snd]
      exact ((List.perm_append_singleton v rest).nodup_iff).mpr hc
    intro a ha b hb hab
    exact List.inj_on_of_nodup_map this ha hb hab

lemma mem_cycArcs_fst {c : List ℕ} {x : ℕ} (hx : x ∈ c) :
    ∃ a ∈ cycArcs c, a.1 = x := by
  cases c with
  | nil => simp at hx
  | cons v rest =>
    have : x ∈ (cycArcs (v :: rest)).map Prod.fst := by rw [cycArcs_map_fst]; exact hx
    obtain ⟨a, ha, haeq⟩ := List.mem_map.mp this
    exact ⟨a, ha, haeq⟩

lemma mem_cycArcs_snd {c : List ℕ} {x : ℕ} (hx : x ∈ c) :
    ∃ a ∈ cycArcs c, a.2 = x := by
  cases c with
  | nil => simp at hx
  | cons v rest =>
    have : x ∈ (cycArcs (v :: rest)).map Prod.snd := by
      rw [cycArcs_map_snd]
      exact (List.perm_append_singleton v rest).mem_iff.mpr hx
    obtain ⟨a, ha, haeq⟩ := List.mem_map.mp this
    exact ⟨a, ha, haeq⟩

lemma cycArcs_fst_mem {c : List ℕ} {a : ℕ × ℕ} (ha : a ∈ cycArcs c) : a.1 ∈ c := by
  cases c with
  | nil => simp [cycArcs] at ha
  | cons v rest =>
    have : a.1 ∈ (cycArcs (v :: rest)).map Prod.fst := List.mem_map_of_mem _ ha
    rwa [cycArcs_map_fst] at this

lemma cycArcs_snd_mem {c : List ℕ} {a : ℕ × ℕ} (ha : a ∈ cycArcs c) : a.2 ∈ c := by
  cases c with
  | nil => simp [cycArcs] at ha
  | cons v rest =>
    have : a.2 ∈ (cycArcs (v :: rest)).map Prod.snd := List.mem_map_of_mem _ ha
    rw [cycArcs_map_snd] at this
    exact (List.perm_append_singleton v rest).mem_iff.mp this

end CycleFinder

section Alternation

/-- In a closed alternating Boolean sequence `a :: L ++ [a]`, the values
balance out: `a :: L` holds as many `true`s as `false`s.  This is the
alternating-cycle argument: matched and unmatched arcs alternate around a
cycle of the exchange digraph. -/
lemma alt_closed_count :
    ∀ (n : ℕ) (L : List Bool) (a : Bool), L.length ≤ n →
      List.Chain' (· ≠ ·) (a :: (L ++ [a])) →
      (a :: L).count true = (a :: L).count false := by
  intro n
  induction n with
  | zero =>
    intro L a hlen hchain
    obtain rfl : L = [] := List.length_eq_zero.mp (Nat.le_zero.mp hlen)
    exact absurd rfl (List.chain'_cons.mp hchain).1
  | succ n ih =>
    intro L a hlen hchain
    rcases L with _ | ⟨b, L'⟩
    · exact absurd rfl (List.chain'_cons.mp hchain).1
    rcases L' with _ | ⟨c, L''⟩
    · have h1 : a ≠ b := (List.chain'_cons.mp hchain).1
      cases a <;> cases b <;> simp_all [List.count_cons]
    · have h1 : a ≠ b := (List.chain'_cons.mp hchain).1
      have hchain2 := (List.chain'_cons.mp hchain).2
      obtain ⟨h2, hchain3⟩ :
          b ≠ c ∧ List.Chain' (· ≠ ·) (c :: (L'' ++ [a])) := by
        simpa using hchain2
      have hca : c = a := by cases a <;> cases b <;> cases c <;> simp_all
      subst hca
      have hrec := ih L'' c (by simp at hlen; omega) hchain3
      simp only [List.count_cons] at hrec ⊢
      cases b <;> cases c <;> simp_all <;> omega

end Alternation

section ToggleLemmas

variable {g : Graph} {mtch : List (ℕ × ℕ)} {c : List ℕ}

lemma inG_swap {g : Graph} {p : ℕ × ℕ} (h : inG g p) : inG g (p.2, p.1) := by
  rcases h with h | h
  · exact Or.inr (by simpa using h)
  · exact Or.inl h

/-- An arc of the exchange digraph joins a side-0 vertex and a
side-nonzero vertex (in one order or the other). -/
lemma arc_cross {g : Graph} {mtch : List (ℕ × ℕ)} (hwf : WF g) {a : ℕ × ℕ}
    (ha : a ∈ formDirected g mtch) :
    (g.bip a.1 = 0 ∧ g.bip a.2 ≠ 0) ∨ (g.bip a.1 ≠ 0 ∧ g.bip a.2 = 0) := by
  obtain ⟨ee, hee, horient⟩ := mem_formDirected.mp ha
  have hcross := hwf.cross ee hee
  have : a = ee ∨ a = (ee.2, ee.1) := by
    rw [← horient, orientArc]
    split <;> split <;> simp
  rcases this with rfl | rfl
  · exact hcross
  · tauto

lemma emit_cases {g : Graph} {onArcs : List (ℕ × ℕ)} {a p : ℕ × ℕ}
    (h : p ∈ (if a ∈ onArcs then
        (if g.bip a.2 = 0 then some (a.2, a.1) else none)
      else
        (if g.bip a.1 = 0 then some a else none))) :
    (a ∈ onArcs ∧ g.bip a.2 = 0 ∧ p = (a.2, a.1)) ∨
      (a ∉ onArcs ∧ g.bip a.1 = 0 ∧ p = a) := by
  by_cases h1 : a ∈ onArcs
  · rw [if_pos h1] at h
    by_cases h2 : g.bip a.2 = 0
    · rw [if_pos h2] at h
      exact Or.inl ⟨h1, h2, (Option.mem_some_iff.mp h).symm⟩
    · rw [if_neg h2] at h; simp at h
  · rw [if_neg h1] at h
    by_cases h2 : g.bip a.1 = 0
    · rw [if_pos h2] at h
      exact Or.inr ⟨h1, h2, (Option.mem_some_iff.mp h).symm⟩
    · rw [if_neg h2] at h; simp at h

lemma mem_toggleNewMatch {g : Graph} {d onArcs : List (ℕ × ℕ)} {p : ℕ × ℕ} :
    p ∈ toggleNewMatch g d onArcs ↔
      ∃ a ∈ d, (a ∈ onArcs ∧ g.bip a.2 = 0 ∧ p = (a.2, a.1)) ∨
               (a ∉ onArcs ∧ g.bip a.1 = 0 ∧ p = a) := by
  simp only [toggleNewMatch, List.mem_filterMap]
  constructor
  · rintro ⟨a, ha, hfa⟩
    refine ⟨a, ha, emit_cases (p := p) ?_⟩
    simpa using hfa
  · rintro ⟨a, ha, ⟨h1, h2, he⟩ | ⟨h1, h2, he⟩⟩
    · refine ⟨a, ha, ?_⟩
      rw [if_pos h1, if_pos h2, he]
    · refine ⟨a, ha, ?_⟩
      rw [if_neg h1, if_pos h2, he]

/-- A kept (off-selection) arc with side-0 source is a matching entry that
is an edge of `g`. -/
lemma kept_mem_matchInG (hwf : WF g) (hor : leftOriented g mtch) {a : ℕ × ℕ}
    (ha : a ∈ formDirected g mtch) (hb1 : g.bip a.1 = 0) :
    a ∈ matchInG g mtch := by
  obtain ⟨hain, hspec⟩ := arc_spec hwf hor ha
  rcases hspec with ⟨_, _, hm⟩ | ⟨hb1', _, _⟩
  · exact List.mem_filter.mpr ⟨hm, by simpa using hain⟩
  · exact absurd hb1 hb1'

/-- An arc with side-0 target is an unmatched arc, so its source is on side
nonzero. -/
lemma arc_src_ne_zero (hwf : WF g) (hor : leftOriented g mtch) {a : ℕ × ℕ}
    (ha : a ∈ formDirected g mtch) (hb2 : g.bip a.2 = 0) :
    g.bip a.1 ≠ 0 ∧ ¬ inMatch mtch a := by
  obtain ⟨_, hspec⟩ := arc_spec hwf hor ha
  rcases hspec with ⟨_, hb2', _⟩ | ⟨hb1', _, hnm⟩
  · exact absurd hb2 hb2'
  · exact ⟨hb1', hnm⟩

/-- Every output entry of the toggle construction is a left-to-right
oriented edge of `g`. -/
lemma toggle_oriented (hwf : WF g) (hor : leftOriented g mtch)
    {onArcs : List (ℕ × ℕ)} {p : ℕ × ℕ}
    (hp : p ∈ toggleNewMatch g (formDirected g mtch) onArcs) :
    g.bip p.1 = 0 ∧ g.bip p.2 ≠ 0 ∧ inG g p := by
  obtain ⟨a, ha, hcase⟩ := mem_toggleNewMatch.mp hp
  obtain ⟨hain, _⟩ := arc_spec hwf hor ha
  rcases hcase with ⟨_, h2, rfl⟩ | ⟨_, h1, rfl⟩
  · exact ⟨h2, (arc_src_ne_zero hwf hor ha h2).1, inG_swap hain⟩
  · rcases arc_cross hwf ha with ⟨hb1, hb2⟩ | ⟨hb1, _⟩
    · exact ⟨h1, hb2, hain⟩
    · exact absurd h1 hb1

/-- The matching entry covering a cycle vertex lies on the cycle. -/
lemma matched_on_cycle (hwf : WF g) (hor : leftOriented g mtch)
    (hval : isMatching (matchInG g mtch))
    (hc : IsCycleOf (formDirected g mtch) c)
    {x : ℕ} (hx : x ∈ c) {m : ℕ × ℕ} (hm : m ∈ matchInG g mtch)
    (hxm : x = m.1 ∨ x = m.2) : m ∈ cycArcs c := by
  by_cases hbx : g.bip x = 0
  · obtain ⟨a, ha, ha1⟩ := mem_cycArcs_fst hx
    have had := mem_cycArcs_mem hc a ha
    obtain ⟨hain, hspec⟩ := arc_spec hwf hor had
    rcases hspec with ⟨_, _, hmem⟩ | ⟨hb1, _, _⟩
    · have haM : a ∈ matchInG g mtch :=
        List.mem_filter.mpr ⟨hmem, by simpa using hain⟩
      have : m = a := isMatching_unique hval hm haM x hxm (Or.inl ha1.symm)
      exact this ▸ ha
    · rw [ha1] at hb1; exact absurd hbx hb1
  · obtain ⟨a, ha, ha2⟩ := mem_cycArcs_snd hx
    have had := mem_cycArcs_mem hc a ha
    obtain ⟨hain, hspec⟩ := arc_spec hwf hor had
    rcases hspec with ⟨_, _, hmem⟩ | ⟨_, hb2, _⟩
    · have haM : a ∈ matchInG g mtch :=
        List.mem_filter.mpr ⟨hmem, by simpa using hain⟩
      have : m = a := isMatching_unique hval hm haM x hxm (Or.inr ha2.symm)
      exact this ▸ ha
    · rw [ha2] at hb2; exact absurd hb2 hbx

/-- A kept matching entry and a toggled cycle arc never share a vertex. -/
lemma kept_tog_disj (hwf : WF g) (hor : leftOriented g mtch)
    (hval : isMatching (matchInG g mtch))
    (hc : IsCycleOf (formDirected g mtch) c)
    {a b : ℕ × ℕ} (haM : a ∈ matchInG g mtch) (hanot : a ∉ cycArcs c)
    (hbon : b ∈ cycArcs c) : pairDisj a (b.2, b.1) := by
  have key : ∀ x : ℕ, (x = a.1 ∨ x = a.2) → (x = b.1 ∨ x = b.2) → False := by
    intro x hxa hxb
    have hxc : x ∈ c := by
      rcases hxb with rfl | rfl
      · exact cycArcs_fst_mem hbon
      · exact cycArcs_snd_mem hbon
    exact hanot (matched_on_cycle hwf hor hval hc hxc haM hxa)
  exact ⟨fun h => key a.1 (Or.inl rfl) (Or.inr h),
    fun h => key a.1 (Or.inl rfl) (Or.inl h),
    fun h => key a.2 (Or.inr rfl) (Or.inr h),
    fun h => key a.2 (Or.inr rfl) (Or.inl h)⟩

/-- The result of toggling along a cycle of the exchange digraph is again a
matching. -/
lemma toggle_cycle_isMatching (hwf : WF g) (hor : leftOriented g mtch)
    (hval : isMatching (matchInG g mtch))
    (hc : IsCycleOf (formDirected g mtch) c) :
    isMatching (toggleNewMatch g (formDirected g mtch) (cycArcs c)) := by
  have hcnd : c.Nodup := hc.2.1
  constructor
  · rw [toggleNewMatch, List.pairwise_filterMap]
    have hdPW : (formDirected g mtch).Pairwise
        (fun a b => normEdge a ≠ normEdge b) := by
      have h1 := @formDirected_normEdge_nodup g mtch hwf
      exact List.pairwise_map.mp h1
    refine hdPW.imp_of_mem ?_
    intro a b ha hb hne p hp q hq
    have hane : a ≠ b := fun hEq => hne (by rw [hEq])
    rcases emit_cases hp with ⟨haon, ha2, rfl⟩ | ⟨haoff, ha1, rfl⟩ <;>
      rcases emit_cases hq with ⟨hbon, hb2, rfl⟩ | ⟨hboff, hb1, rfl⟩
    · -- both arcs toggled: distinct cycle arcs never collide
      refine ⟨?_, ?_, ?_, ?_⟩
      · intro h; exact hane (cycArcs_snd_inj hcnd a haon b hbon h)
      · intro h
        change a.2 = b.1 at h
        exact (arc_src_ne_zero hwf hor hb hb2).1 (by rw [← h]; exact ha2)
      · intro h
        change a.1 = b.2 at h
        exact (arc_src_ne_zero hwf hor ha ha2).1 (by rw [h]; exact hb2)
      · intro h; exact hane (cycArcs_fst_inj hcnd a haon b hbon h)
    · -- toggled vs kept
      exact pairDisj_symm (kept_tog_disj hwf hor hval hc
        (kept_mem_matchInG hwf hor hb hb1) hboff haon)
    · -- kept vs toggled
      exact kept_tog_disj hwf hor hval hc
        (kept_mem_matchInG hwf hor ha ha1) haoff hbon
    · -- both kept: two matching entries
      exact (hval.1.forall pairDisj_symm)
        (kept_mem_matchInG hwf hor ha ha1)
        (kept_mem_matchInG hwf hor hb hb1) hane
  · intro p hp
    obtain ⟨h1, h2, _⟩ := toggle_oriented hwf hor hp
    intro hEq
    rw [hEq] at h1
    exact h2 h1

end ToggleLemmas

lemma countP_split {α : Type} (l : List α) (p q : α → Bool) :
    l.countP q = (l.filter p).countP q + (l.filter (fun x => !p x)).countP q := by
  induction l with
  | nil => simp
  | cons a l ih =>
    by_cases hp : p a = true <;> by_cases hq : q a = true <;>
      simp [List.countP_cons, List.filter_cons, hp, hq, ih] <;> omega

lemma cycArcs_nodup {c : List ℕ} (hc : c.Nodup) : (cycArcs c).Nodup := by
  cases c with
  | nil => simp [cycArcs]
  | cons v rest =>
    have : ((cycArcs (v :: rest)).map Prod.fst).Nodup := by
      rw [cycArcs_map_fst]; exact hc
    exact this.of_map _

lemma cycArcs_filter_perm {g : Graph} {mtch : List (ℕ × ℕ)} {c : List ℕ}
    (hwf : WF g) (hc : IsCycleOf (formDirected g mtch) c) :
    ((formDirected g mtch).filter (fun a => decide (a ∈ cycArcs c))).Perm
      (cycArcs c) := by
  refine List.perm_of_nodup_nodup_toFinset_eq
    ((formDirected_nodup hwf).filter _) (cycArcs_nodup hc.2.1) ?_
  ext a
  simp only [List.mem_toFinset, List.mem_filter, decide_eq_true_eq]
  exact ⟨fun h => h.2, fun h => ⟨mem_cycArcs_mem hc a h, h⟩⟩

/-- Around a cycle of the exchange digraph, side-0 and side-nonzero
vertices alternate, so they are equinumerous. -/
lemma cycle_balance {g : Graph} {mtch : List (ℕ × ℕ)} {c : List ℕ}
    (hwf : WF g) (hc : IsCycleOf (formDirected g mtch) c) :
    c.countP (fun x => decide (g.bip x = 0)) =
      c.countP (fun x => !decide (g.bip x = 0)) := by
  obtain ⟨hne, hnodup, hchain⟩ := hc
  set f : ℕ → Bool := fun x => decide (g.bip x = 0) with hf
  cases c with
  | nil => simp
  | cons v rest =>
    have hchain2 : List.Chain' (fun a b => f a ≠ f b) ((v :: rest) ++ [v]) := by
      refine hchain.imp ?_
      intro a b hab
      rcases arc_cross hwf (show (a, b) ∈ formDirected g mtch from hab) with
        ⟨h1, h2⟩ | ⟨h1, h2⟩ <;> simp [hf, h1, h2]
    have hchainM : List.Chain' (· ≠ ·) (((v :: rest) ++ [v]).map f) :=
      (List.chain'_map (R := (· ≠ ·)) f).mpr hchain2
    have hshape : ((v :: rest) ++ [v]).map f = f v :: (rest.map f ++ [f v]) := by
      simp
    rw [hshape] at hchainM
    have hcount := alt_closed_count (rest.map f).length (rest.map f) (f v)
      le_rfl hchainM
    have hc1 : (f v :: rest.map f) = (v :: rest).map f := by simp
    rw [hc1] at hcount
    have ht : ((v :: rest).map f).count true = (v :: rest).countP f := by
      rw [List.count_eq_countP, List.countP_map]
      refine List.countP_congr ?_
      intro x _
      simp [hf]
    have hfcount : ((v :: rest).map f).count false =
        (v :: rest).countP (fun x => !f x) := by
      rw [List.count_eq_countP, List.countP_map]
      refine List.countP_congr ?_
      intro x _
      cases hfx : f x <;> simp [hfx]
    rw [ht, hfcount] at hcount
    exact hcount

/-- Toggling along a cycle preserves the cardinality of the matching. -/
lemma toggle_cycle_length {g : Graph} {mtch : List (ℕ × ℕ)} {c : List ℕ}
    (hwf : WF g) (hor : leftOriented g mtch)
    (hval : isMatching (matchInG g mtch))
    (hc : IsCycleOf (formDirected g mtch) c) :
    (toggleNewMatch g (formDirected g mtch) (cycArcs c)).length =
      (matchInG g mtch).length := by
  set d := formDirected g mtch with hd
  set onA := cycArcs c with honA
  rw [toggleNewMatch, List.length_filterMap_eq_countP]
  have hstep1 : d.countP (fun a =>
      (if a ∈ onA then (if g.bip a.2 = 0 then some (a.2, a.1) else none)
        else (if g.bip a.1 = 0 then some a else none)).isSome) =
      d.countP (fun a => if a ∈ onA then decide (g.bip a.2 = 0)
        else decide (g.bip a.1 = 0)) := by
    refine List.countP_congr ?_
    intro a _
    by_cases h1 : a ∈ onA <;> by_cases h2 : g.bip a.2 = 0 <;>
      by_cases h3 : g.bip a.1 = 0 <;> simp [h1, h2, h3]
  rw [hstep1]
  have hsplit := countP_split d (fun a => decide (a ∈ onA))
    (fun a => if a ∈ onA then decide (g.bip a.2 = 0) else decide (g.bip a.1 = 0))
  rw [hsplit]
  have hon_part : (d.filter (fun a => decide (a ∈ onA))).countP
      (fun a => if a ∈ onA then decide (g.bip a.2 = 0)
        else decide (g.bip a.1 = 0)) =
      onA.countP (fun a => decide (g.bip a.1 = 0)) := by
    have e1 : (d.filter (fun a => decide (a ∈ onA))).countP
        (fun a => if a ∈ onA then decide (g.bip a.2 = 0)
          else decide (g.bip a.1 = 0)) =
        (d.filter (fun a => decide (a ∈ onA))).countP
          (fun a => !decide (g.bip a.1 = 0)) := by
      refine List.countP_congr ?_
      intro a ha
      obtain ⟨had, haon⟩ := List.mem_filter.mp ha
      rw [if_pos (by simpa using haon)]
      rcases arc_cross hwf (show a ∈ formDirected g mtch from had) with
        ⟨h1, h2⟩ | ⟨h1, h2⟩ <;> simp [h1, h2]
    rw [e1, (cycArcs_filter_perm hwf hc).countP_eq]
    have e2 : onA.countP (fun a => !decide (g.bip a.1 = 0)) =
        c.countP (fun x => !decide (g.bip x = 0)) := by
      cases c with
      | nil => simp [honA, cycArcs]
      | cons v rest =>
        conv_rhs => rw [← @cycArcs_map_fst v rest]
        rw [List.countP_map, honA]
        rfl
    have e3 : onA.countP (fun a => decide (g.bip a.1 = 0)) =
        c.countP (fun x => decide (g.bip x = 0)) := by
      cases c with
      | nil => simp [honA, cycArcs]
      | cons v rest =>
        conv_rhs => rw [← @cycArcs_map_fst v rest]
        rw [List.countP_map, honA]
        rfl
    rw [e2, e3, ← cycle_balance hwf hc]
  have hoff_part : (d.filter (fun a => !decide (a ∈ onA))).countP
      (fun a => if a ∈ onA then decide (g.bip a.2 = 0)
        else decide (g.bip a.1 = 0)) =
      (d.filter (fun a => !decide (a ∈ onA))).countP
        (fun a => decide (g.bip a.1 = 0)) := by
    refine List.countP_congr ?_
    intro a ha
    obtain ⟨_, hanot⟩ := List.mem_filter.mp ha
    rw [if_neg (by simpa using hanot)]
  rw [hon_part, hoff_part]
  have hback : onA.countP (fun a => decide (g.bip a.1 = 0)) +
      (d.filter (fun a => !decide (a ∈ onA))).countP
        (fun a => decide (g.bip a.1 = 0)) =
      d.countP (fun a => decide (g.bip a.1 = 0)) := by
    rw [countP_split d (fun a => decide (a ∈ onA))
      (fun a => decide (g.bip a.1 = 0)),
      (cycArcs_filter_perm hwf hc).countP_eq]
  rw [hback, List.countP_eq_length_filter]
  exact (matchedArcs_perm hwf hor hval).length_eq

section CycleEdgePick

variable {g : Graph} {mtch : List (ℕ × ℕ)} {c : List ℕ} {e : ℕ × ℕ}

/-- Properties of the selected cycle edge `e` (source lines 229-231,
`set(match).intersection(set(cycle))`, first element): it is a matched edge
of `g` lying on the cycle, left-to-right oriented. -/
lemma pickCycleE_spec (hwf : WF g) (hor : leftOriented g mtch)
    (hc : IsCycleOf (formDirected g mtch) c)
    (he : (mtch.filter (fun p => p ∈ cycArcs c)).head? = some e) :
    e ∈ mtch ∧ e ∈ cycArcs c ∧ e ∈ matchInG g mtch ∧
      g.bip e.1 = 0 ∧ g.bip e.2 ≠ 0 ∧ inG g e := by
  have hmem : e ∈ mtch.filter (fun p => p ∈ cycArcs c) :=
    List.mem_of_mem_head? he
  obtain ⟨hm, hon⟩ := List.mem_filter.mp hmem
  have hon' : e ∈ cycArcs c := by simpa using hon
  have hed : e ∈ formDirected g mtch := mem_cycArcs_mem hc e hon'
  obtain ⟨hin, hspec⟩ := arc_spec hwf hor hed
  rcases hspec with ⟨h1, h2, _⟩ | ⟨_, _, hnm⟩
  · exact ⟨hm, hon', List.mem_filter.mpr ⟨hm, by simpa using hin⟩, h1, h2, hin⟩
  · exact absurd (Or.inl hm) hnm

/-- The matched-edges-on-cycle intersection is never empty: every cycle of
the exchange digraph carries a matched edge.  (The source would raise an
`IndexError` otherwise; this shows the fallback branch of the embedding is
unreachable.) -/
lemma pickCycleE_exists (hwf : WF g) (hor : leftOriented g mtch)
    (hval : isMatching (matchInG g mtch))
    (hc : IsCycleOf (formDirected g mtch) c) :
    ∃ e, (mtch.filter (fun p => p ∈ cycArcs c)).head? = some e := by
  have hne := hc.1
  have hv : c.headI ∈ c := by
    cases c with
    | nil => exact absurd rfl hne
    | cons v rest => simp
  have : ∃ a ∈ cycArcs c, a ∈ mtch := by
    by_cases hb : g.bip c.headI = 0
    · obtain ⟨a, ha, ha1⟩ := mem_cycArcs_fst hv
      have had := mem_cycArcs_mem hc a ha
      obtain ⟨_, hspec⟩ := arc_spec hwf hor had
      rcases hspec with ⟨_, _, hm⟩ | ⟨hb1, _, _⟩
      · exact ⟨a, ha, hm⟩
      · rw [ha1] at hb1; exact absurd hb hb1
    · obtain ⟨a, ha, ha2⟩ := mem_cycArcs_snd hv
      have had := mem_cycArcs_mem hc a ha
      obtain ⟨_, hspec⟩ := arc_spec hwf hor had
      rcases hspec with ⟨_, _, hm⟩ | ⟨_, hb2, _⟩
      · exact ⟨a, ha, hm⟩
      · rw [ha2] at hb2; exact absurd hb2 hb
  obtain ⟨a, haon, ham⟩ := this
  have hmem : a ∈ mtch.filter (fun p => p ∈ cycArcs c) :=
    List.mem_filter.mpr ⟨ham, by simpa using haon⟩
  cases hflt : mtch.filter (fun p => p ∈ cycArcs c) with
  | nil => exact absurd (hflt ▸ hmem) (List.not_mem_nil a)
  | cons x xs => exact ⟨x, rfl⟩

/-- The toggled matching never contains the selected cycle edge: toggling
removes every matched cycle edge. -/
lemma cycle_e_not_in_toggle (hwf : WF g) (hor : leftOriented g mtch)
    (hval : isMatching (matchInG g mtch))
    (hc : IsCycleOf (formDirected g mtch) c)
    (he : (mtch.filter (fun p => p ∈ cycArcs c)).head? = some e) :
    ∀ p ∈ toggleNewMatch g (formDirected g mtch) (cycArcs c),
      normEdge p ≠ normEdge e := by
  obtain ⟨hm, hon, heM, _, _, hin⟩ := pickCycleE_spec hwf hor hc he
  intro p hp hne
  obtain ⟨a, ha, hcase⟩ := mem_toggleNewMatch.mp hp
  rcases hcase with ⟨haon, ha2, hpe⟩ | ⟨haoff, ha1, hpe⟩
  · -- toggled arc: an unmatched edge cannot equal the matched edge e
    rw [hpe] at hne
    have hed : e ∈ formDirected g mtch := mem_cycArcs_mem hc e hon
    have haE : a = e := List.inj_on_of_nodup_map
      (formDirected_normEdge_nodup hwf) ha hed (by rw [← normEdge_swap a]; exact hne)
    have hnm := (arc_src_ne_zero hwf hor ha ha2).2
    rw [haE] at hnm
    exact hnm (Or.inl hm)
  · -- kept arc: it would be a second matching entry with the same edge
    rw [hpe] at hne
    have haM : a ∈ matchInG g mtch := kept_mem_matchInG hwf hor ha ha1
    have : a = e :=
      List.inj_on_of_nodup_map (isMatching_normEdge_nodup hval) haM heM hne
    rw [this] at haoff
    exact haoff hon

end CycleEdgePick

/-- The invariants the recursion maintains on its `(graph, match, add_e)`
state:  matching entries that are edges of the graph form a left-oriented
valid matching; forced edges form a valid matching of cross pairs whose
vertices have been removed from the graph. -/
structure MInv (g : Graph) (mtch add_e : List (ℕ × ℕ)) : Prop where
  oriented : leftOriented g mtch
  valid : isMatching (matchInG g mtch)
  add_valid : isMatching add_e
  add_cross : ∀ p ∈ add_e,
    (g.bip p.1 = 0 ∧ g.bip p.2 ≠ 0) ∨ (g.bip p.1 ≠ 0 ∧ g.bip p.2 = 0)
  add_off : ∀ p ∈ add_e, ∀ q ∈ g.edges,
    p.1 ≠ q.1 ∧ p.1 ≠ q.2 ∧ p.2 ≠ q.1 ∧ p.2 ≠ q.2

lemma MInv.add_not_inG {g : Graph} {mtch add_e : List (ℕ × ℕ)}
    (h : MInv g mtch add_e) {p : ℕ × ℕ} (hp : p ∈ add_e) : ¬ inG g p := by
  rintro (hq | hq)
  · exact (h.add_off p hp p hq).1 rfl
  · exact (h.add_off p hp (p.2, p.1) hq).2.1 rfl

/-- A pair whose both endpoints lie on `g`-edges is vertex-disjoint from
every forced edge. -/
lemma MInv.add_disj_inG {g : Graph} {mtch add_e : List (ℕ × ℕ)}
    (h : MInv g mtch add_e) {p q : ℕ × ℕ} (hp : p ∈ add_e) (hq : inG g q) :
    pairDisj q p := by
  rcases hq with hq | hq
  · obtain ⟨h1, h2, h3, h4⟩ := h.add_off p hp q hq
    exact ⟨h1.symm, h3.symm, h2.symm, h4.symm⟩
  · obtain ⟨h1, h2, h3, h4⟩ := h.add_off p hp (q.2, q.1) hq
    exact ⟨h2.symm, h4.symm, h1.symm, h3.symm⟩

/-- Appending the forced edges to a valid toggled matching yields a valid
matching (the recorded `new_match` of source lines 181-185 / 223-227). -/
lemma recorded_isMatching {g : Graph} {mtch add_e T : List (ℕ × ℕ)}
    (hMI : MInv g mtch add_e) (hT : isMatching T)
    (hTor : ∀ p ∈ T, g.bip p.1 = 0 ∧ g.bip p.2 ≠ 0 ∧ inG g p) :
    isMatching (T ++ add_e) := by
  constructor
  · rw [List.pairwise_append]
    exact ⟨hT.1, hMI.add_valid.1,
      fun p hp q hq => hMI.add_disj_inG hq (hTor p hp).2.2⟩
  · intro p hp
    rcases List.mem_append.mp hp with hp | hp
    · obtain ⟨h1, h2, _⟩ := hTor p hp
      intro hEq; rw [hEq] at h1; exact h2 h1
    · exact hMI.add_valid.2 p hp

section InGRemoval

variable {g : Graph} {u v : ℕ} {p : ℕ × ℕ}

lemma inG_removeEdge_iff :
    inG (g.removeEdge u v) p ↔ inG g p ∧ normEdge p ≠ normEdge (u, v) := by
  constructor
  · rintro (hq | hq) <;> obtain ⟨h1, h2⟩ := mem_removeEdge_edges.mp hq
    · refine ⟨Or.inl h1, fun hnorm => h2 ?_⟩
      exact normEdge_eq_cases hnorm
    · refine ⟨Or.inr h1, fun hnorm => h2 ?_⟩
      have hnorm2 : normEdge (p.2, p.1) = normEdge (u, v) := by
        rw [normEdge_swap]; exact hnorm
      exact normEdge_eq_cases hnorm2
  · rintro ⟨hq | hq, hnorm⟩
    · refine Or.inl (mem_removeEdge_edges.mpr ⟨hq, ?_⟩)
      rintro (rfl | h)
      · exact hnorm rfl
      · exact hnorm (by rw [h]; exact normEdge_swap (u, v))
    · refine Or.inr (mem_removeEdge_edges.mpr ⟨hq, ?_⟩)
      rintro (h | h)
      · exact hnorm (by rw [← normEdge_swap p, h])
      · exact hnorm (by rw [← normEdge_swap p, h]; exact normEdge_swap (u, v))

lemma inG_removeNode_iff {w : ℕ} :
    inG (g.removeNode w) p ↔ inG g p ∧ p.1 ≠ w ∧ p.2 ≠ w := by
  constructor
  · rintro (hq | hq) <;> obtain ⟨h1, h2, h3⟩ := mem_removeNode_edges.mp hq
    · exact ⟨Or.inl h1, h2, h3⟩
    · exact ⟨Or.inr h1, h3, h2⟩
  · rintro ⟨hq | hq, h2, h3⟩
    · exact Or.inl (mem_removeNode_edges.mpr ⟨hq, h2, h3⟩)
    · exact Or.inr (mem_removeNode_edges.mpr ⟨hq, h3, h2⟩)

lemma inG_of_removeEdge (h : inG (g.removeEdge u v) p) : inG g p :=
  (inG_removeEdge_iff.mp h).1

lemma inG_of_removeNode {w : ℕ} (h : inG (g.removeNode w) p) : inG g p :=
  (inG_removeNode_iff.mp h).1

end InGRemoval

section CycleChildren

variable {g : Graph} {mtch add_e : List (ℕ × ℕ)} {c : List ℕ} {e : ℕ × ℕ}

/-- On the edge-deleted child graph, the effective matching of the passed
`new_match` is exactly the toggled matching (the forced edges stay outside
the graph). -/
lemma matchInG_cycle_minus (hwf : WF g) (hMI : MInv g mtch add_e)
    (hc : IsCycleOf (formDirected g mtch) c)
    (he : (mtch.filter (fun p => p ∈ cycArcs c)).head? = some e) :
    matchInG (g.removeEdge e.1 e.2)
        (toggleNewMatch g (formDirected g mtch) (cycArcs c) ++ add_e) =
      toggleNewMatch g (formDirected g mtch) (cycArcs c) := by
  rw [matchInG, List.filter_append]
  have h1 : (toggleNewMatch g (formDirected g mtch) (cycArcs c)).filter
      (fun p => decide (inG (g.removeEdge e.1 e.2) p)) =
      toggleNewMatch g (formDirected g mtch) (cycArcs c) := by
    refine List.filter_eq_self.mpr ?_
    intro p hp
    have hin := (toggle_oriented hwf hMI.oriented hp).2.2
    have hne := cycle_e_not_in_toggle hwf hMI.oriented hMI.valid hc he p hp
    simp only [decide_eq_true_eq]
    exact inG_removeEdge_iff.mpr ⟨hin, by simpa using hne⟩
  have h2 : add_e.filter
      (fun p => decide (inG (g.removeEdge e.1 e.2) p)) = [] := by
    refine List.filter_eq_nil_iff.mpr ?_
    intro p hp
    simp only [decide_eq_true_eq]
    intro hin
    exact hMI.add_not_inG hp (inG_of_removeEdge hin)
  rw [h1, h2, List.append_nil]

/-- Invariants for the cycle-case `g_minus` child call
`(g − e, new_match, add_e)` (source line 244). -/
lemma MInv_cycle_minus (hwf : WF g) (hMI : MInv g mtch add_e)
    (hc : IsCycleOf (formDirected g mtch) c)
    (he : (mtch.filter (fun p => p ∈ cycArcs c)).head? = some e) :
    MInv (g.removeEdge e.1 e.2)
      (toggleNewMatch g (formDirected g mtch) (cycArcs c) ++ add_e) add_e where
  oriented := by
    intro p hp hin
    rcases List.mem_append.mp hp with hp | hp
    · exact (toggle_oriented hwf hMI.oriented hp).1
    · exact absurd (inG_of_removeEdge hin) (hMI.add_not_inG hp)
  valid := by
    rw [matchInG_cycle_minus hwf hMI hc he]
    exact toggle_cycle_isMatching hwf hMI.oriented hMI.valid hc
  add_valid := hMI.add_valid
  add_cross := hMI.add_cross
  add_off := fun p hp q hq =>
    hMI.add_off p hp q (mem_removeEdge_edges.mp hq).1

/-- On the vertex-deleted child graph, the effective matching of the
unchanged `match` loses exactly the selected edge `e`. -/
lemma matchInG_cycle_plus (hwf : WF g) (hor : leftOriented g mtch)
    (hval : isMatching (matchInG g mtch))
    (hc : IsCycleOf (formDirected g mtch) c)
    (he : (mtch.filter (fun p => p ∈ cycArcs c)).head? = some e) :
    matchInG ((g.removeNode e.1).removeNode e.2) mtch =
      (matchInG g mtch).filter (fun p => decide (p ≠ e)) := by
  obtain ⟨hm, hon, heM, hb1, hb2, hin⟩ := pickCycleE_spec hwf hor hc he
  rw [matchInG, matchInG, List.filter_filter]
  refine List.filter_congr ?_
  intro p hp
  rw [← Bool.decide_and, decide_eq_decide]
  constructor
  · intro hGp
    obtain ⟨h1, h2, h3⟩ := inG_removeNode_iff.mp hGp
    obtain ⟨h4, h5, h6⟩ := inG_removeNode_iff.mp h1
    refine ⟨fun hpe => ?_, h4⟩
    subst hpe
    exact h5 rfl
  · rintro ⟨hne, hGp⟩
    have hpM : p ∈ matchInG g mtch := List.mem_filter.mpr ⟨hp, by simpa using hGp⟩
    have hd := (hval.1.forall pairDisj_symm) hpM heM hne
    exact inG_removeNode_iff.mpr
      ⟨inG_removeNode_iff.mpr ⟨hGp, hd.1, hd.2.2.1⟩, hd.2.1, hd.2.2.2⟩

lemma matchInG_cycle_plus_length (hwf : WF g) (hor : leftOriented g mtch)
    (hval : isMatching (matchInG g mtch))
    (hc : IsCycleOf (formDirected g mtch) c)
    (he : (mtch.filter (fun p => p ∈ cycArcs c)).head? = some e) :
    (matchInG ((g.removeNode e.1).removeNode e.2) mtch).length =
      (matchInG g mtch).length - 1 ∧ e ∈ matchInG g mtch := by
  obtain ⟨hm, hon, heM, _, _, _⟩ := pickCycleE_spec hwf hor hc he
  rw [matchInG_cycle_plus hwf hor hval hc he]
  have hnd := isMatching_nodup hval
  have hperm : ((matchInG g mtch).filter (fun p => decide (p ≠ e))).Perm
      ((matchInG g mtch).erase e) := by
    refine List.perm_of_nodup_nodup_toFinset_eq (hnd.filter _) (hnd.erase e) ?_
    ext q
    simp only [List.mem_toFinset, List.mem_filter, decide_eq_true_eq,
      hnd.mem_erase_iff]
    tauto
  rw [hperm.length_eq, List.length_erase_of_mem heM]
  exact ⟨rfl, heM⟩

/-- Invariants for the cycle-case `g_plus` child call
`(g − {endpoints of e}, match, [e] + add_e)` (source line 245). -/
lemma MInv_cycle_plus (hwf : WF g) (hMI : MInv g mtch add_e)
    (hc : IsCycleOf (formDirected g mtch) c)
    (he : (mtch.filter (fun p => p ∈ cycArcs c)).head? = some e) :
    MInv ((g.removeNode e.1).removeNode e.2) mtch (e :: add_e) := by
  obtain ⟨hm, hon, heM, hb1, hb2, hin⟩ :=
    pickCycleE_spec hwf hMI.oriented hc he
  refine ⟨?_, ?_, ?_, ?_, ?_⟩
  · intro p hp hpin
    exact hMI.oriented p hp (inG_of_removeNode (inG_of_removeNode hpin))
  · rw [matchInG_cycle_plus hwf hMI.oriented hMI.valid hc he]
    exact isMatching_sublist (List.filter_sublist _) hMI.valid
  · constructor
    · rw [List.pairwise_cons]
      exact ⟨fun q hq => hMI.add_disj_inG hq hin, hMI.add_valid.1⟩
    · intro p hp
      rcases List.mem_cons.mp hp with rfl | hp
      · intro hEq; rw [hEq] at hb1; exact hb2 hb1
      · exact hMI.add_valid.2 p hp
  · intro p hp
    rcases List.mem_cons.mp hp with rfl | hp
    · exact Or.inl ⟨hb1, hb2⟩
    · exact hMI.add_cross p hp
  · intro p hp q hq
    obtain ⟨hq1, hq2, hq3⟩ := mem_removeNode_edges.mp hq
    obtain ⟨hq4, hq5, hq6⟩ := mem_removeNode_edges.mp hq1
    rcases List.mem_cons.mp hp with rfl | hp
    · exact ⟨Ne.symm hq5, Ne.symm hq6, Ne.symm hq2, Ne.symm hq3⟩
    · exact hMI.add_off p hp q hq4

end CycleChildren

section PathFinder

lemma mem_map_swap {d : List (ℕ × ℕ)} {a b : ℕ} :
    (a, b) ∈ d.map (fun a => (a.2, a.1)) ↔ (b, a) ∈ d := by
  rw [List.mem_map]
  constructor
  · rintro ⟨c, hc, hEq⟩
    have h1 : c.2 = a := congrArg Prod.fst hEq
    have h2 : c.1 = b := congrArg Prod.snd hEq
    have hc' : c = (b, a) := Prod.ext h2 h1
    exact hc' ▸ hc
  · intro h
    exact ⟨(b, a), h, rfl⟩

lemma len2paths_sound {d : List (ℕ × ℕ)} {v : ℕ} {q : List ℕ}
    (hq : q ∈ len2pathsModel d v) :
    ∃ w x, q = [v, w, x] ∧ (v, w) ∈ d ∧ (w, x) ∈ d ∧ x ≠ v ∧ x ≠ w := by
  rw [len2pathsModel, List.mem_flatten] at hq
  obtain ⟨l, hl, hql⟩ := hq
  rw [List.mem_map] at hl
  obtain ⟨a, ha, rfl⟩ := hl
  obtain ⟨had, hav⟩ := List.mem_filter.mp ha
  have hav' : a.1 = v := by simpa using hav
  rw [List.mem_map] at hql
  obtain ⟨b, hb, rfl⟩ := hql
  obtain ⟨hb1, hb2⟩ := List.mem_filter.mp hb
  obtain ⟨hbd, hba⟩ := List.mem_filter.mp hb1
  have hba' : b.1 = a.2 := by simpa using hba
  have hcond : b.2 ≠ v ∧ b.2 ≠ a.2 := by
    simp only [Bool.and_eq_true, Bool.not_eq_eq_eq_not, Bool.not_true,
      beq_eq_false_iff_ne, ne_eq, decide_eq_false_iff_not] at hb2
    exact ⟨hb2.1.1, hb2.1.2⟩
  refine ⟨a.2, b.2, rfl, ?_, ?_, hcond.1, hcond.2⟩
  · have : (v, a.2) = a := Prod.ext hav'.symm rfl
    exact this ▸ had
  · have : (a.2, b.2) = b := Prod.ext hba'.symm rfl
    exact this ▸ hbd

lemma findFeasiblePath_sound {g : Graph} {d : List (ℕ × ℕ)} :
    ∀ {ul : List ℕ} {p : List ℕ}, findFeasiblePath g d ul = some p →
    ∃ u ∈ ul,
      (∃ w x, p = [u, w, x] ∧ (u, w) ∈ d ∧ (w, x) ∈ d ∧ x ≠ u ∧ x ≠ w) ∨
      (∃ w x, p = [x, w, u] ∧ (x, w) ∈ d ∧ (w, u) ∈ d ∧ x ≠ u ∧ x ≠ w) := by
  intro ul
  induction ul with
  | nil => intro p h; simp [findFeasiblePath] at h
  | cons u rest ih =>
    intro p h
    rw [findFeasiblePath] at h
    by_cases hiso : isolatedIn g u
    · rw [if_pos hiso] at h
      obtain ⟨u', hu', hrest⟩ := ih h
      exact ⟨u', List.mem_cons_of_mem u hu', hrest⟩
    · rw [if_neg hiso] at h
      cases hfwd : (len2pathsModel d u).head? with
      | some q =>
        rw [hfwd] at h
        obtain rfl : q = p := by simpa using h
        obtain ⟨w, x, rfl, h1, h2, h3, h4⟩ :=
          len2paths_sound (List.mem_of_mem_head? hfwd)
        exact ⟨u, by simp, Or.inl ⟨w, x, rfl, h1, h2, h3, h4⟩⟩
      | none =>
        rw [hfwd] at h
        cases hrev : (len2pathsModel (d.map (fun a => (a.2, a.1))) u).head? with
        | some q =>
          rw [hrev] at h
          obtain rfl : q.reverse = p := by simpa using h
          obtain ⟨w, x, hq, h1, h2, h3, h4⟩ :=
            len2paths_sound (List.mem_of_mem_head? hrev)
          refine ⟨u, by simp, Or.inr ⟨w, x, by rw [hq]; rfl, ?_, ?_, h3, h4⟩⟩
          · exact (mem_map_swap (a := w) (b := x)).mp h2
          · exact (mem_map_swap (a := u) (b := w)).mp h1
        | none =>
          rw [hrev] at h
          obtain ⟨u', hu', hrest⟩ := ih h
          exact ⟨u', List.mem_cons_of_mem u hu', hrest⟩

/-- Full structure of the feasible length-2 path the source selects
(lines 139-170): its two arcs are one unmatched arc `eU` (incident to the
chosen uncovered vertex) and one matched arc `eM`, sharing their middle
vertex. -/
lemma findFeasiblePath_spec {g : Graph} {mtch : List (ℕ × ℕ)}
    {uncovList : List ℕ} {p : List ℕ}
    (hwf : WF g) (hor : leftOriented g mtch)
    (huncl : ∀ x ∈ uncovList, uncoveredIn mtch x)
    (hp : findFeasiblePath g (formDirected g mtch) uncovList = some p) :
    ∃ eU eM : ℕ × ℕ,
      eU ∈ formDirected g mtch ∧ eM ∈ formDirected g mtch ∧
      ¬ inMatch mtch eU ∧ g.bip eU.1 ≠ 0 ∧ g.bip eU.2 = 0 ∧
      eM ∈ mtch ∧ inG g eM ∧ g.bip eM.1 = 0 ∧ g.bip eM.2 ≠ 0 ∧
      normEdge eU ≠ normEdge eM ∧
      ((pathArcs p = [eU, eM] ∧ eU.2 = eM.1 ∧ uncoveredIn mtch eU.1 ∧
          eM.2 ≠ eU.1) ∨
       (pathArcs p = [eM, eU] ∧ eM.2 = eU.1 ∧ uncoveredIn mtch eU.2 ∧
          eM.1 ≠ eU.2)) := by
  obtain ⟨u, hu, hcase⟩ := findFeasiblePath_sound hp
  have hunc : uncoveredIn mtch u := huncl u hu
  rcases hcase with ⟨w, x, rfl, h1, h2, hxu, hxw⟩ | ⟨w, x, rfl, h1, h2, hxu, hxw⟩
  · -- forward path [u, w, x]
    obtain ⟨hin1, hspec1⟩ := arc_spec hwf hor h1
    rcases hspec1 with ⟨_, _, hm1⟩ | ⟨hb1, hb2, hnm1⟩
    · exact absurd rfl (hunc (u, w) hm1).1
    obtain ⟨hin2, hspec2⟩ := arc_spec hwf hor h2
    rcases hspec2 with ⟨hb3, hb4, hm2⟩ | ⟨hb3, _, _⟩
    · refine ⟨(u, w), (w, x), h1, h2, hnm1, hb1, hb2, hm2, hin2, hb3, hb4, ?_, ?_⟩
      · intro hnorm
        rcases normEdge_eq_cases hnorm with hEq | hEq
        · have hc1 : u = w := congrArg Prod.fst hEq
          rw [hc1] at hb1
          exact hb1 hb3
        · have hc1 : u = x := congrArg Prod.fst hEq
          exact hxu hc1.symm
      · exact Or.inl ⟨rfl, rfl, hunc, hxu⟩
    · exact absurd hb2 (by simpa using hb3)
  · -- reversed path [x, w, u]
    obtain ⟨hin1, hspec1⟩ := arc_spec hwf hor h2
    rcases hspec1 with ⟨_, _, hm1⟩ | ⟨hb1, hb2, hnm1⟩
    · exact absurd rfl (hunc (w, u) hm1).2
    obtain ⟨hin2, hspec2⟩ := arc_spec hwf hor h1
    rcases hspec2 with ⟨hb3, hb4, hm2⟩ | ⟨_, hb4, _⟩
    · refine ⟨(w, u), (x, w), h2, h1, hnm1, hb1, hb2, hm2, hin2, hb3, hb4, ?_, ?_⟩
      · intro hnorm
        rcases normEdge_eq_cases hnorm with hEq | hEq
        · have hc1 : w = x := congrArg Prod.fst hEq
          exact hxw hc1.symm
        · have hc2 : u = x := congrArg Prod.snd hEq
          exact hxu hc2.symm
      · exact Or.inr ⟨rfl, rfl, hunc, hxu⟩
    · exact absurd hb4 hb1

/-- The facts established about the selected feasible path: its arcs are an
unmatched arc `eU` touching the chosen uncovered vertex and a matched arc
`eM`, sharing their middle vertex. -/
structure PathSel (g : Graph) (mtch : List (ℕ × ℕ)) (eU eM : ℕ × ℕ)
    (p : List ℕ) : Prop where
  hU : eU ∈ formDirected g mtch
  hM : eM ∈ formDirected g mtch
  hUnm : ¬ inMatch mtch eU
  hU1 : g.bip eU.1 ≠ 0
  hU2 : g.bip eU.2 = 0
  hMm : eM ∈ mtch
  hMin : inG g eM
  hM1 : g.bip eM.1 = 0
  hM2 : g.bip eM.2 ≠ 0
  hnorm : normEdge eU ≠ normEdge eM
  shape : (pathArcs p = [eU, eM] ∧ eU.2 = eM.1 ∧ uncoveredIn mtch eU.1 ∧
      eM.2 ≠ eU.1) ∨
    (pathArcs p = [eM, eU] ∧ eM.2 = eU.1 ∧ uncoveredIn mtch eU.2 ∧
      eM.1 ≠ eU.2)

lemma findFeasiblePath_pathSel {g : Graph} {mtch : List (ℕ × ℕ)}
    {uncovList : List ℕ} {p : List ℕ}
    (hwf : WF g) (hor : leftOriented g mtch)
    (huncl : ∀ x ∈ uncovList, uncoveredIn mtch x)
    (hp : findFeasiblePath g (formDirected g mtch) uncovList = some p) :
    ∃ eU eM, PathSel g mtch eU eM p := by
  obtain ⟨eU, eM, h1, h2, h3, h4, h5, h6, h7, h8, h9, h10, h11⟩ :=
    findFeasiblePath_spec hwf hor huncl hp
  exact ⟨eU, eM, h1, h2, h3, h4, h5, h6, h7, h8, h9, h10, h11⟩

namespace PathSel

variable {g : Graph} {mtch : List (ℕ × ℕ)} {eU eM : ℕ × ℕ} {p : List ℕ}

lemma hne (hs : PathSel g mtch eU eM p) : eU ≠ eM :=
  fun h => hs.hnorm (by rw [h])

lemma mem_arcs (hs : PathSel g mtch eU eM p) :
    eU ∈ pathArcs p ∧ eM ∈ pathArcs p := by
  rcases hs.shape with ⟨h, _⟩ | ⟨h, _⟩ <;> rw [h] <;> simp

lemma arcs_cases (hs : PathSel g mtch eU eM p) {a : ℕ × ℕ}
    (ha : a ∈ pathArcs p) : a = eU ∨ a = eM := by
  rcases hs.shape with ⟨h, _⟩ | ⟨h, _⟩ <;> rw [h] at ha <;>
    rcases List.mem_pair.mp ha with h' | h' <;> tauto

lemma memM (hs : PathSel g mtch eU eM p) : eM ∈ matchInG g mtch :=
  List.mem_filter.mpr ⟨hs.hMm, by simpa using hs.hMin⟩

/-- Every matching entry sharing a vertex with the selected unmatched arc
`eU` is the matched path arc `eM`. -/
lemma touch_eU (hs : PathSel g mtch eU eM p)
    (hval : isMatching (matchInG g mtch)) {a : ℕ × ℕ}
    (haM : a ∈ matchInG g mtch) {x : ℕ} (hxU : x = eU.1 ∨ x = eU.2)
    (hxa : x = a.1 ∨ x = a.2) : a = eM := by
  have ham : a ∈ mtch := (List.mem_filter.mp haM).1
  rcases hs.shape with ⟨_, hshare, hunc, _⟩ | ⟨_, hshare, hunc, _⟩
  · -- forward: eU.1 uncovered, eU.2 = eM.1
    rcases hxU with rfl | rfl
    · exfalso
      obtain ⟨hu1, hu2⟩ := hunc a ham
      rcases hxa with h | h
      · exact hu1 h.symm
      · exact hu2 h.symm
    · exact isMatching_unique hval haM hs.memM eU.2 hxa (Or.inl hshare)
  · -- reversed: eU.2 uncovered, eM.2 = eU.1
    rcases hxU with rfl | rfl
    · exact isMatching_unique hval haM hs.memM eU.1 hxa (Or.inr hshare.symm)
    · exfalso
      obtain ⟨hu1, hu2⟩ := hunc a ham
      rcases hxa with h | h
      · exact hu1 h.symm
      · exact hu2 h.symm

end PathSel

section PathToggle

variable {g : Graph} {mtch : List (ℕ × ℕ)} {eU eM : ℕ × ℕ} {p : List ℕ}

/-- A kept matching entry never shares a vertex with the toggled unmatched
path arc. -/
lemma kept_togU_disj (hval : isMatching (matchInG g mtch))
    (hs : PathSel g mtch eU eM p) {a : ℕ × ℕ}
    (haM : a ∈ matchInG g mtch) (hanot : a ∉ pathArcs p) :
    pairDisj a (eU.2, eU.1) := by
  have key : ∀ x : ℕ, (x = a.1 ∨ x = a.2) → (x = eU.1 ∨ x = eU.2) → False := by
    intro x hxa hxU
    have haE : a = eM := hs.touch_eU hval haM hxU hxa
    rw [haE] at hanot
    exact hanot hs.mem_arcs.2
  exact ⟨fun h => key a.1 (Or.inl rfl) (Or.inr h),
    fun h => key a.1 (Or.inl rfl) (Or.inl h),
    fun h => key a.2 (Or.inr rfl) (Or.inr h),
    fun h => key a.2 (Or.inr rfl) (Or.inl h)⟩

/-- The result of toggling along the selected feasible path is again a
matching. -/
lemma toggle_path_isMatching (hwf : WF g) (hor : leftOriented g mtch)
    (hval : isMatching (matchInG g mtch)) (hs : PathSel g mtch eU eM p) :
    isMatching (toggleNewMatch g (formDirected g mtch) (pathArcs p)) := by
  constructor
  · rw [toggleNewMatch, List.pairwise_filterMap]
    have hdPW : (formDirected g mtch).Pairwise
        (fun a b => normEdge a ≠ normEdge b) :=
      List.pairwise_map.mp (formDirected_normEdge_nodup hwf)
    refine hdPW.imp_of_mem ?_
    intro a b ha hb hnorm q1 hq1 q2 hq2
    have hane : a ≠ b := fun hEq => hnorm (by rw [hEq])
    have htogU : ∀ x : ℕ × ℕ, x ∈ pathArcs p → g.bip x.2 = 0 → x = eU := by
      intro x hxon hx2
      rcases hs.arcs_cases hxon with h | h
      · exact h
      · rw [h] at hx2; exact absurd hx2 hs.hM2
    rcases emit_cases hq1 with ⟨haon, ha2, hpe1⟩ | ⟨haoff, ha1, hpe1⟩ <;>
      rcases emit_cases hq2 with ⟨hbon, hb2, hpe2⟩ | ⟨hboff, hb1, hpe2⟩
    · exact absurd ((htogU a haon ha2).trans (htogU b hbon hb2).symm) hane
    · rw [hpe1, hpe2, htogU a haon ha2]
      exact pairDisj_symm (kept_togU_disj hval hs
        (kept_mem_matchInG hwf hor hb hb1) hboff)
    · rw [hpe1, hpe2, htogU b hbon hb2]
      exact kept_togU_disj hval hs (kept_mem_matchInG hwf hor ha ha1) haoff
    · rw [hpe1, hpe2]
      exact (hval.1.forall pairDisj_symm)
        (kept_mem_matchInG hwf hor ha ha1)
        (kept_mem_matchInG hwf hor hb hb1) hane
  · intro q hq
    obtain ⟨h1, h2, _⟩ := toggle_oriented hwf hor hq
    intro hEq
    rw [hEq] at h1
    exact h2 h1

lemma pathArcs_nodup (hs : PathSel g mtch eU eM p) : (pathArcs p).Nodup := by
  rcases hs.shape with ⟨h, _⟩ | ⟨h, _⟩ <;> rw [h] <;>
    simp [hs.hne, (hs.hne).symm]

lemma pathArcs_subset_d (hs : PathSel g mtch eU eM p) :
    ∀ a ∈ pathArcs p, a ∈ formDirected g mtch := by
  intro a ha
  rcases hs.arcs_cases ha with rfl | rfl
  · exact hs.hU
  · exact hs.hM

lemma pathArcs_filter_perm (hwf : WF g) (hs : PathSel g mtch eU eM p) :
    ((formDirected g mtch).filter (fun a => decide (a ∈ pathArcs p))).Perm
      (pathArcs p) := by
  refine List.perm_of_nodup_nodup_toFinset_eq
    ((formDirected_nodup hwf).filter _) (pathArcs_nodup hs) ?_
  ext a
  simp only [List.mem_toFinset, List.mem_filter, decide_eq_true_eq]
  exact ⟨fun h => h.2, fun h => ⟨pathArcs_subset_d hs a h, h⟩⟩

/-- Toggling along the selected feasible path preserves the cardinality of
the matching. -/
lemma toggle_path_length (hwf : WF g) (hor : leftOriented g mtch)
    (hval : isMatching (matchInG g mtch)) (hs : PathSel g mtch eU eM p) :
    (toggleNewMatch g (formDirected g mtch) (pathArcs p)).length =
      (matchInG g mtch).length := by
  set d := formDirected g mtch with hd
  set onA := pathArcs p with honA
  rw [toggleNewMatch, List.length_filterMap_eq_countP]
  have hstep1 : d.countP (fun a =>
      (if a ∈ onA then (if g.bip a.2 = 0 then some (a.2, a.1) else none)
        else (if g.bip a.1 = 0 then some a else none)).isSome) =
      d.countP (fun a => if a ∈ onA then decide (g.bip a.2 = 0)
        else decide (g.bip a.1 = 0)) := by
    refine List.countP_congr ?_
    intro a _
    by_cases h1 : a ∈ onA <;> by_cases h2 : g.bip a.2 = 0 <;>
      by_cases h3 : g.bip a.1 = 0 <;> simp [h1, h2, h3]
  rw [hstep1]
  rw [countP_split d (fun a => decide (a ∈ onA))
    (fun a => if a ∈ onA then decide (g.bip a.2 = 0) else decide (g.bip a.1 = 0))]
  have hone : (d.filter (fun a => decide (a ∈ onA))).countP
      (fun a => if a ∈ onA then decide (g.bip a.2 = 0)
        else decide (g.bip a.1 = 0)) = 1 := by
    have e1 : (d.filter (fun a => decide (a ∈ onA))).countP
        (fun a => if a ∈ onA then decide (g.bip a.2 = 0)
          else decide (g.bip a.1 = 0)) =
        (d.filter (fun a => decide (a ∈ onA))).countP
          (fun a => decide (g.bip a.2 = 0)) := by
      refine List.countP_congr ?_
      intro a ha
      obtain ⟨_, haon⟩ := List.mem_filter.mp ha
      rw [if_pos (by simpa using haon)]
    rw [e1, (pathArcs_filter_perm hwf hs).countP_eq]
    rcases hs.shape with ⟨h, _⟩ | ⟨h, _⟩ <;> rw [h] <;>
      simp [List.countP_cons, hs.hU2, hs.hM2]
  have hoff : (d.filter (fun a => !decide (a ∈ onA))).countP
      (fun a => if a ∈ onA then decide (g.bip a.2 = 0)
        else decide (g.bip a.1 = 0)) =
      (d.filter (fun a => !decide (a ∈ onA))).countP
        (fun a => decide (g.bip a.1 = 0)) := by
    refine List.countP_congr ?_
    intro a ha
    obtain ⟨_, hanot⟩ := List.mem_filter.mp ha
    rw [if_neg (by simpa using hanot)]
  rw [hone, hoff]
  have htot : (matchInG g mtch).length =
      d.countP (fun a => decide (g.bip a.1 = 0)) := by
    rw [List.countP_eq_length_filter]
    exact ((matchedArcs_perm hwf hor hval).length_eq).symm
  rw [htot, countP_split d (fun a => decide (a ∈ onA))
    (fun a => decide (g.bip a.1 = 0))]
  have hone2 : (d.filter (fun a => decide (a ∈ onA))).countP
      (fun a => decide (g.bip a.1 = 0)) = 1 := by
    rw [(pathArcs_filter_perm hwf hs).countP_eq]
    rcases hs.shape with ⟨h, _⟩ | ⟨h, _⟩ <;> rw [h] <;>
      simp [List.countP_cons, hs.hU1, hs.hM1]
  rw [hone2]

/-- The selected path edge `e` of source lines 188-189
(`set(len2path).difference(set(match))`, first element) is exactly the
unmatched path arc `eU` — oriented right-to-left. -/
lemma pickPathE_eq (hs : PathSel g mtch eU eM p) :
    ((pathArcs p).filter (fun q => decide (q ∉ mtch))).head? = some eU := by
  have hUm : eU ∉ mtch := fun h => hs.hUnm (Or.inl h)
  rcases hs.shape with ⟨h, _⟩ | ⟨h, _⟩ <;> rw [h] <;>
    simp [List.filter_cons, hUm, hs.hMm]

end PathToggle

section PathChildren

variable {g : Graph} {mtch add_e : List (ℕ × ℕ)} {eU eM : ℕ × ℕ} {p : List ℕ}

/-- The toggled matching contains the reversal of the selected path edge:
the unmatched path arc becomes matched. -/
lemma swap_eU_mem_toggle (hs : PathSel g mtch eU eM p) :
    (eU.2, eU.1) ∈ toggleNewMatch g (formDirected g mtch) (pathArcs p) :=
  mem_toggleNewMatch.mpr ⟨eU, hs.hU, Or.inl ⟨hs.mem_arcs.1, hs.hU2, rfl⟩⟩

lemma eU_edge_not_in_mtch (hs : PathSel g mtch eU eM p) :
    ∀ q ∈ mtch, normEdge q ≠ normEdge eU := by
  intro q hq hnorm
  rcases normEdge_eq_cases hnorm with rfl | hq2
  · exact hs.hUnm (Or.inl hq)
  · rw [hq2] at hq
    exact hs.hUnm (Or.inr hq)

/-- Deleting the unmatched selected edge leaves the effective matching
untouched. -/
lemma matchInG_path_minus (hs : PathSel g mtch eU eM p) :
    matchInG (g.removeEdge eU.1 eU.2) mtch = matchInG g mtch := by
  rw [matchInG, matchInG]
  refine List.filter_congr ?_
  intro q hq
  rw [decide_eq_decide]
  constructor
  · exact inG_of_removeEdge
  · intro hin
    exact inG_removeEdge_iff.mpr ⟨hin, eU_edge_not_in_mtch hs q hq⟩

/-- Invariants for the path-case `g_minus` child call
`(g − e, match, add_e)` (source line 203). -/
lemma MInv_path_minus (hwf : WF g) (hMI : MInv g mtch add_e)
    (hs : PathSel g mtch eU eM p) :
    MInv (g.removeEdge eU.1 eU.2) mtch add_e where
  oriented := fun q hq hin => hMI.oriented q hq (inG_of_removeEdge hin)
  valid := by
    rw [matchInG_path_minus hs]
    exact hMI.valid
  add_valid := hMI.add_valid
  add_cross := hMI.add_cross
  add_off := fun q hq r hr =>
    hMI.add_off q hq r (mem_removeEdge_edges.mp hr).1

/-- On the vertex-deleted path-case child, the effective matching of the
passed `new_match` is the toggled matching minus the just-forced pair. -/
lemma matchInG_path_plus (hwf : WF g) (hor : leftOriented g mtch)
    (hval : isMatching (matchInG g mtch)) (hMI : MInv g mtch add_e)
    (hs : PathSel g mtch eU eM p) :
    matchInG ((g.removeNode eU.1).removeNode eU.2)
        (toggleNewMatch g (formDirected g mtch) (pathArcs p) ++ add_e) =
      (toggleNewMatch g (formDirected g mtch) (pathArcs p)).filter
        (fun q => decide (q ≠ (eU.2, eU.1))) := by
  rw [matchInG, List.filter_append]
  have h2 : add_e.filter
      (fun q => decide (inG ((g.removeNode eU.1).removeNode eU.2) q)) = [] := by
    refine List.filter_eq_nil_iff.mpr ?_
    intro q hq
    simp only [decide_eq_true_eq]
    intro hin
    exact hMI.add_not_inG hq (inG_of_removeNode (inG_of_removeNode hin))
  rw [h2, List.append_nil]
  refine List.filter_congr ?_
  intro q hq
  rw [decide_eq_decide]
  constructor
  · intro hin
    obtain ⟨h1, h2', _⟩ := inG_removeNode_iff.mp hin
    intro hqe
    rw [hqe] at h2'
    exact h2' rfl
  · intro hqe
    obtain ⟨a, ha, hcase⟩ := mem_toggleNewMatch.mp hq
    rcases hcase with ⟨haon, ha2, hpe⟩ | ⟨haoff, ha1, hpe⟩
    · exfalso
      have haU : a = eU := by
        rcases hs.arcs_cases haon with h | h
        · exact h
        · rw [h] at ha2; exact absurd ha2 hs.hM2
      rw [hpe, haU] at hqe
      exact hqe rfl
    · have hqM : q ∈ matchInG g mtch := by
        rw [hpe]; exact kept_mem_matchInG hwf hor ha ha1
      have havoid : ∀ x : ℕ, (x = eU.1 ∨ x = eU.2) →
          q.1 ≠ x ∧ q.2 ≠ x := by
        intro x hxU
        constructor <;> intro hcomp <;>
          [have hE := hs.touch_eU hval hqM hxU (Or.inl hcomp.symm);
           have hE := hs.touch_eU hval hqM hxU (Or.inr hcomp.symm)] <;>
          (have haE : a = eM := by rw [← hpe]; exact hE
           rw [haE] at haoff
           exact haoff hs.mem_arcs.2)
      have hin : inG g q := by
        have := kept_mem_matchInG hwf hor ha ha1
        rw [← hpe] at this
        simpa using (List.mem_filter.mp this).2
      exact inG_removeNode_iff.mpr
        ⟨inG_removeNode_iff.mpr
          ⟨hin, (havoid eU.1 (Or.inl rfl)).1, (havoid eU.1 (Or.inl rfl)).2⟩,
          (havoid eU.2 (Or.inr rfl)).1, (havoid eU.2 (Or.inr rfl)).2⟩

lemma matchInG_path_plus_length (hwf : WF g) (hor : leftOriented g mtch)
    (hval : isMatching (matchInG g mtch)) (hMI : MInv g mtch add_e)
    (hs : PathSel g mtch eU eM p) :
    (matchInG ((g.removeNode eU.1).removeNode eU.2)
        (toggleNewMatch g (formDirected g mtch) (pathArcs p) ++ add_e)).length =
      (matchInG g mtch).length - 1 := by
  rw [matchInG_path_plus hwf hor hval hMI hs]
  have hTval := toggle_path_isMatching hwf hor hval hs
  have hTnd := isMatching_nodup hTval
  have hmem := swap_eU_mem_toggle hs
  have hperm : ((toggleNewMatch g (formDirected g mtch) (pathArcs p)).filter
      (fun q => decide (q ≠ (eU.2, eU.1)))).Perm
      ((toggleNewMatch g (formDirected g mtch) (pathArcs p)).erase
        (eU.2, eU.1)) := by
    refine List.perm_of_nodup_nodup_toFinset_eq (hTnd.filter _)
      (hTnd.erase _) ?_
    ext q
    simp only [List.mem_toFinset, List.mem_filter, decide_eq_true_eq,
      hTnd.mem_erase_iff]
    tauto
  rw [hperm.length_eq, List.length_erase_of_mem hmem,
    toggle_path_length hwf hor hval hs]

/-- Invariants for the path-case `g_plus` child call
`(g − {endpoints of e}, new_match, [e] + add_e)` (source line 204). -/
lemma MInv_path_plus (hwf : WF g) (hMI : MInv g mtch add_e)
    (hs : PathSel g mtch eU eM p) :
    MInv ((g.removeNode eU.1).removeNode eU.2)
      (toggleNewMatch g (formDirected g mtch) (pathArcs p) ++ add_e)
      (eU :: add_e) := by
  have hinU : inG g eU := (arc_spec hwf hMI.oriented hs.hU).1
  refine ⟨?_, ?_, ?_, ?_, ?_⟩
  · intro q hq hin
    rcases List.mem_append.mp hq with hq | hq
    · exact (toggle_oriented hwf hMI.oriented hq).1
    · exact absurd (inG_of_removeNode (inG_of_removeNode hin))
        (hMI.add_not_inG hq)
  · rw [matchInG_path_plus hwf hMI.oriented hMI.valid hMI hs]
    exact isMatching_sublist (List.filter_sublist _)
      (toggle_path_isMatching hwf hMI.oriented hMI.valid hs)
  · constructor
    · rw [List.pairwise_cons]
      exact ⟨fun q hq => hMI.add_disj_inG hq hinU, hMI.add_valid.1⟩
    · intro q hq
      rcases List.mem_cons.mp hq with rfl | hq
      · intro hEq
        have h1 := hs.hU1
        rw [hEq] at h1
        exact h1 hs.hU2
      · exact hMI.add_valid.2 q hq
  · intro q hq
    rcases List.mem_cons.mp hq with rfl | hq
    · exact Or.inr ⟨hs.hU1, hs.hU2⟩
    · exact hMI.add_cross q hq
  · intro q hq r hr
    obtain ⟨hr1, hr2, hr3⟩ := mem_removeNode_edges.mp hr
    obtain ⟨hr4, hr5, hr6⟩ := mem_removeNode_edges.mp hr1
    rcases List.mem_cons.mp hq with rfl | hq
    · exact ⟨Ne.symm hr5, Ne.symm hr6, Ne.symm hr2, Ne.symm hr3⟩
    · exact hMI.add_off q hq r hr4

end PathChildren

section UnfoldEquations

variable {fuel : ℕ} {g : Graph} {mtch : List (ℕ × ℕ)}
variable {all : List (List (ℕ × ℕ))} {add_e : List (ℕ × ℕ)}

lemma iterO_zero : enumMaximumMatchingIterO 0 g mtch all add_e = none := rfl

/-- Branch equation, cycle found and a matched cycle edge selected (source
lines 207-245): record the toggled matching, then recurse on `g_minus`
with the new matching and on `g_plus` with the old matching and `e`
forced. -/
lemma iterO_cycle_some {cyc : List ℕ} {e : ℕ × ℕ}
    (hc : findCycleModel (formDirected g mtch) = some cyc)
    (he : (mtch.filter (fun p => p ∈ cycArcs cyc)).head? = some e) :
    enumMaximumMatchingIterO (fuel + 1) g mtch all add_e =
      (enumMaximumMatchingIterO fuel (g.removeEdge e.1 e.2)
          (toggleNewMatch g (formDirected g mtch) (cycArcs cyc) ++ add_e)
          (all ++ [toggleNewMatch g (formDirected g mtch) (cycArcs cyc) ++ add_e])
          add_e).bind
        (fun r1 => enumMaximumMatchingIterO fuel
          ((g.removeNode e.1).removeNode e.2) mtch r1 (e :: add_e)) := by
  rw [enumMaximumMatchingIterO]
  simp only [hc, he]
  rfl

lemma iterO_cycle_nopick {cyc : List ℕ}
    (hc : findCycleModel (formDirected g mtch) = some cyc)
    (he : (mtch.filter (fun p => p ∈ cycArcs cyc)).head? = none) :
    enumMaximumMatchingIterO (fuel + 1) g mtch all add_e =
      some (all ++ [toggleNewMatch g (formDirected g mtch) (cycArcs cyc) ++ add_e]) := by
  rw [enumMaximumMatchingIterO]
  simp only [hc, he]

/-- Branch equation, no cycle but a feasible path found and its unmatched
edge selected (source lines 128-204): record the toggled matching, then
recurse on `g_minus` with the old matching and on `g_plus` with the new
matching and `e` forced. -/
lemma iterO_path_some {p : List ℕ} {e : ℕ × ℕ}
    (hc : findCycleModel (formDirected g mtch) = none)
    (hp : findFeasiblePath g (formDirected g mtch) (uncovList g mtch) = some p)
    (he : ((pathArcs p).filter (fun q => q ∉ mtch)).head? = some e) :
    enumMaximumMatchingIterO (fuel + 1) g mtch all add_e =
      (enumMaximumMatchingIterO fuel (g.removeEdge e.1 e.2) mtch
          (all ++ [toggleNewMatch g (formDirected g mtch) (pathArcs p) ++ add_e])
          add_e).bind
        (fun r1 => enumMaximumMatchingIterO fuel
          ((g.removeNode e.1).removeNode e.2)
          (toggleNewMatch g (formDirected g mtch) (pathArcs p) ++ add_e)
          r1 (e :: add_e)) := by
  rw [enumMaximumMatchingIterO]
  simp only [hc, hp, he]
  rfl

lemma iterO_path_nopick {p : List ℕ}
    (hc : findCycleModel (formDirected g mtch) = none)
    (hp : findFeasiblePath g (formDirected g mtch) (uncovList g mtch) = some p)
    (he : ((pathArcs p).filter (fun q => q ∉ mtch)).head? = none) :
    enumMaximumMatchingIterO (fuel + 1) g mtch all add_e =
      some (all ++ [toggleNewMatch g (formDirected g mtch) (pathArcs p) ++ add_e]) := by
  rw [enumMaximumMatchingIterO]
  simp only [hc, hp, he]

/-- Branch equation, terminal state: no cycle, no feasible path (source
lines 136-137 and 161-162). -/
lemma iterO_terminal
    (hc : findCycleModel (formDirected g mtch) = none)
    (hp : findFeasiblePath g (formDirected g mtch) (uncovList g mtch) = none) :
    enumMaximumMatchingIterO (fuel + 1) g mtch all add_e = some all := by
  rw [enumMaximumMatchingIterO]
  simp only [hc, hp]

end UnfoldEquations

/-- Any arc of the exchange digraph is an edge of `g` in one of the two
orientations. -/
lemma mem_formDirected_edge {g : Graph} {mtch : List (ℕ × ℕ)} {a : ℕ × ℕ}
    (ha : a ∈ formDirected g mtch) :
    a ∈ g.edges ∨ (a.2, a.1) ∈ g.edges := by
  obtain ⟨ee, hee, horient⟩ := mem_formDirected.mp ha
  have : a = ee ∨ a = (ee.2, ee.1) := by
    rw [← horient, orientArc]
    split <;> split <;> simp
  rcases this with rfl | rfl
  · exact Or.inl hee
  · exact Or.inr (by simpa using hee)

lemma findFeasiblePath_arcs_sub {g : Graph} {d : List (ℕ × ℕ)}
    {ul : List ℕ} {p : List ℕ} (h : findFeasiblePath g d ul = some p) :
    ∀ a ∈ pathArcs p, a ∈ d := by
  obtain ⟨u, _, hcase⟩ := findFeasiblePath_sound h
  rcases hcase with ⟨w, x, rfl, h1, h2, _, _⟩ | ⟨w, x, rfl, h1, h2, _, _⟩ <;>
    (intro a ha
     rcases List.mem_pair.mp (by simpa [pathArcs] using ha) with rfl | rfl <;>
       assumption)

/-- With fuel exceeding the number of edges, the embedded recursion always
completes: each recursive call strictly decreases the edge count. -/
lemma iterO_isSome :
    ∀ (fuel : ℕ) (g : Graph) (mtch : List (ℕ × ℕ))
      (all : List (List (ℕ × ℕ))) (add_e : List (ℕ × ℕ)),
      g.edges.length < fuel →
      (enumMaximumMatchingIterO fuel g mtch all add_e).isSome := by
  intro fuel
  induction fuel with
  | zero => intro g _ _ _ h; omega
  | succ fuel ih =>
    intro g mtch all add_e hlen
    cases hc : findCycleModel (formDirected g mtch) with
    | some cyc =>
      cases he : (mtch.filter (fun p => p ∈ cycArcs cyc)).head? with
      | none => rw [iterO_cycle_nopick hc he]; rfl
      | some e =>
        rw [iterO_cycle_some hc he]
        have hcyc := findCycleModel_sound hc
        have hed : e ∈ formDirected g mtch := mem_cycArcs_mem hcyc e
          (by simpa using (List.mem_filter.mp (List.mem_of_mem_head? he)).2)
        have hedge := mem_formDirected_edge hed
        have h1 : (g.removeEdge e.1 e.2).edges.length < fuel :=
          Nat.lt_of_lt_of_le (removeEdge_length_lt hedge) (by omega)
        have h2 : ((g.removeNode e.1).removeNode e.2).edges.length < fuel :=
          Nat.lt_of_lt_of_le (removeNode_both_length_lt hedge) (by omega)
        obtain ⟨r1, hr1⟩ := Option.isSome_iff_exists.mp (ih _ _ _ _ h1)
        rw [hr1]
        exact ih _ _ r1 _ h2
    | none =>
      cases hp : findFeasiblePath g (formDirected g mtch) (uncovList g mtch) with
      | none => rw [iterO_terminal hc hp]; rfl
      | some p =>
        cases he : ((pathArcs p).filter (fun q => q ∉ mtch)).head? with
        | none => rw [iterO_path_nopick hc hp he]; rfl
        | some e =>
          rw [iterO_path_some hc hp he]
          have hed : e ∈ formDirected g mtch := findFeasiblePath_arcs_sub hp e
            (List.mem_filter.mp (List.mem_of_mem_head? he)).1
          have hedge := mem_formDirected_edge hed
          have h1 : (g.removeEdge e.1 e.2).edges.length < fuel :=
            Nat.lt_of_lt_of_le (removeEdge_length_lt hedge) (by omega)
          have h2 : ((g.removeNode e.1).removeNode e.2).edges.length < fuel :=
            Nat.lt_of_lt_of_le (removeNode_both_length_lt hedge) (by omega)
          obtain ⟨r1, hr1⟩ := Option.isSome_iff_exists.mp (ih _ _ _ _ h1)
          rw [hr1]
          exact ih _ _ r1 _ h2

/-- The recursion only appends to the accumulator. -/
lemma iterO_prefix :
    ∀ (fuel : ℕ) (g : Graph) (mtch : List (ℕ × ℕ))
      (all : List (List (ℕ × ℕ))) (add_e : List (ℕ × ℕ))
      (res : List (List (ℕ × ℕ))),
      enumMaximumMatchingIterO fuel g mtch all add_e = some res →
      ∃ t, res = all ++ t := by
  intro fuel
  induction fuel with
  | zero => intro g _ _ _ res h; rw [iterO_zero] at h; exact absurd h (by simp)
  | succ fuel ih =>
    intro g mtch all add_e res h
    cases hc : findCycleModel (formDirected g mtch) with
    | some cyc =>
      cases he : (mtch.filter (fun p => p ∈ cycArcs cyc)).head? with
      | none =>
        rw [iterO_cycle_nopick hc he] at h
        exact ⟨_, (Option.some_inj.mp h).symm⟩
      | some e =>
        rw [iterO_cycle_some hc he] at h
        obtain ⟨r1, h1, h2⟩ := Option.bind_eq_some.mp h
        obtain ⟨t1, rfl⟩ := ih _ _ _ _ _ h1
        obtain ⟨t2, rfl⟩ := ih _ _ _ _ _ h2
        exact ⟨[toggleNewMatch g (formDirected g mtch) (cycArcs cyc) ++ add_e]
          ++ t1 ++ t2, by simp⟩
    | none =>
      cases hp : findFeasiblePath g (formDirected g mtch) (uncovList g mtch) with
      | none =>
        rw [iterO_terminal hc hp] at h
        exact ⟨[], by simp [(Option.some_inj.mp h).symm]⟩
      | some p =>
        cases he : ((pathArcs p).filter (fun q => q ∉ mtch)).head? with
        | none =>
          rw [iterO_path_nopick hc hp he] at h
          exact ⟨_, (Option.some_inj.mp h).symm⟩
        | some e =>
          rw [iterO_path_some hc hp he] at h
          obtain ⟨r1, h1, h2⟩ := Option.bind_eq_some.mp h
          obtain ⟨t1, rfl⟩ := ih _ _ _ _ _ h1
          obtain ⟨t2, rfl⟩ := ih _ _ _ _ _ h2
          exact ⟨[toggleNewMatch g (formDirected g mtch) (pathArcs p) ++ add_e]
            ++ t1 ++ t2, by simp⟩

section EdgeFSLemmas

lemma mem_edgeFS {m : List (ℕ × ℕ)} {x : ℕ × ℕ} :
    x ∈ edgeFS m ↔ ∃ p ∈ m, normEdge p = x := by
  simp [edgeFS]

lemma edgeFS_mem {m : List (ℕ × ℕ)} {p : ℕ × ℕ} (h : p ∈ m) :
    normEdge p ∈ edgeFS m :=
  mem_edgeFS.mpr ⟨p, h, rfl⟩

lemma edgeFS_append (a b : List (ℕ × ℕ)) :
    edgeFS (a ++ b) = edgeFS a ∪ edgeFS b := by
  simp [edgeFS]

lemma edgeFS_cons (e : ℕ × ℕ) (l : List (ℕ × ℕ)) :
    edgeFS (e :: l) = insert (normEdge e) (edgeFS l) := by
  simp [edgeFS]

/-- Dropping one occurrence-by-value from a list removes at most the one
unordered edge from its edge set. -/
lemma edgeFS_filter_ne {M : List (ℕ × ℕ)} {e : ℕ × ℕ} (he : e ∈ M) :
    edgeFS M =
      insert (normEdge e) (edgeFS (M.filter (fun p => decide (p ≠ e)))) := by
  ext x
  simp only [mem_edgeFS, Finset.mem_insert, List.mem_filter, decide_eq_true_eq]
  constructor
  · rintro ⟨p, hp, rfl⟩
    by_cases hpe : p = e
    · subst hpe; exact Or.inl rfl
    · exact Or.inr ⟨p, ⟨hp, hpe⟩, rfl⟩
  · rintro (rfl | ⟨p, ⟨hp, _⟩, rfl⟩)
    · exact ⟨e, he, rfl⟩
    · exact ⟨p, hp, rfl⟩

/-- Forced edges have both endpoints off the graph, so they never form the
same unordered edge as a graph edge. -/
lemma add_e_normEdge_ne {g : Graph} {mtch add_e : List (ℕ × ℕ)}
    (hMI : MInv g mtch add_e) {e : ℕ × ℕ} (hin : inG g e) :
    ∀ p ∈ add_e, normEdge p ≠ normEdge e := by
  intro p hp hnorm
  rcases normEdge_eq_cases hnorm with rfl | hpe
  · exact hMI.add_not_inG hp hin
  · have : inG g p := by
      have hswap := inG_swap hin
      rw [← hpe] at hswap
      simpa using hswap
    exact hMI.add_not_inG hp this

end EdgeFSLemmas

lemma uncovList_sound {g : Graph} {mtch : List (ℕ × ℕ)} :
    ∀ x ∈ uncovList g mtch, uncoveredIn mtch x := by
  intro x hx
  have := (List.mem_filter.mp hx).2
  simpa [uncoveredIn] using this

/-- Shape of every matching the recursion records while in state
`(g, ·, add_e)`: a valid matching, consisting of the forced edges plus
cross edges of the current graph. -/
def OutForm (g : Graph) (add_e : List (ℕ × ℕ)) (m : List (ℕ × ℕ)) : Prop :=
  isMatching m ∧
  ∃ s, m = s ++ add_e ∧ ∀ p ∈ s, inG g p ∧
    ((g.bip p.1 = 0 ∧ g.bip p.2 ≠ 0) ∨ (g.bip p.1 ≠ 0 ∧ g.bip p.2 = 0))

/-- Everything the recursion guarantees of each newly recorded matching:
its shape, its cardinality, and that it differs (as an edge set) from the
matching carried into the call. -/
def NewOut (g : Graph) (mtch add_e : List (ℕ × ℕ)) (m : List (ℕ × ℕ)) :
    Prop :=
  OutForm g add_e m ∧
  m.length = (matchInG g mtch).length + add_e.length ∧
  edgeFS m ≠ edgeFS (matchInG g mtch ++ add_e)

lemma OutForm.of_removeEdge {g : Graph} {add_e m : List (ℕ × ℕ)} {u v : ℕ}
    (h : OutForm (g.removeEdge u v) add_e m) : OutForm g add_e m := by
  obtain ⟨hval, s, rfl, hs⟩ := h
  exact ⟨hval, s, rfl, fun p hp =>
    ⟨inG_of_removeEdge (hs p hp).1, (hs p hp).2⟩⟩

lemma OutForm.of_removeNode_cons {g : Graph} {add_e m : List (ℕ × ℕ)}
    {w1 w2 : ℕ} {e : ℕ × ℕ} (hin : inG g e)
    (hcross : (g.bip e.1 = 0 ∧ g.bip e.2 ≠ 0) ∨ (g.bip e.1 ≠ 0 ∧ g.bip e.2 = 0))
    (h : OutForm ((g.removeNode w1).removeNode w2) (e :: add_e) m) :
    OutForm g add_e m := by
  obtain ⟨hval, s, rfl, hs⟩ := h
  refine ⟨hval, s ++ [e], by simp, ?_⟩
  intro p hp
  rcases List.mem_append.mp hp with hp | hp
  · exact ⟨inG_of_removeNode (inG_of_removeNode (hs p hp).1), (hs p hp).2⟩
  · rw [List.mem_singleton.mp hp]
    exact ⟨hin, hcross⟩

/-- A matching recorded below the edge-deleted child never uses the
deleted edge. -/
lemma notmem_edgeFS_of_removeEdge {g : Graph} {mtch add_e m : List (ℕ × ℕ)}
    {e : ℕ × ℕ} (hMI : MInv g mtch add_e) (hin : inG g e)
    (hOF : OutForm (g.removeEdge e.1 e.2) add_e m) :
    normEdge e ∉ edgeFS m := by
  obtain ⟨-, s, rfl, hs⟩ := hOF
  intro hx
  obtain ⟨p, hp, hpe⟩ := mem_edgeFS.mp hx
  rcases List.mem_append.mp hp with hp | hp
  · have hne := (inG_removeEdge_iff.mp (hs p hp).1).2
    exact hne (by simpa using hpe)
  · exact add_e_normEdge_ne hMI hin p hp hpe

/-- The edge set the cycle-case `g_plus` child carries (its effective
matching plus its forced edges) is the same one its parent carried. -/
lemma edgeFS_cycle_plus_carry {g : Graph} {mtch add_e : List (ℕ × ℕ)}
    {c : List ℕ} {e : ℕ × ℕ} (hwf : WF g) (hMI : MInv g mtch add_e)
    (hc : IsCycleOf (formDirected g mtch) c)
    (he : (mtch.filter (fun p => p ∈ cycArcs c)).head? = some e) :
    edgeFS (matchInG ((g.removeNode e.1).removeNode e.2) mtch ++ (e :: add_e)) =
      edgeFS (matchInG g mtch ++ add_e) := by
  obtain ⟨_, _, heM, _, _, _⟩ := pickCycleE_spec hwf hMI.oriented hc he
  rw [matchInG_cycle_plus hwf hMI.oriented hMI.valid hc he,
    edgeFS_append, edgeFS_append, edgeFS_cons, edgeFS_filter_ne heM]
  ext x
  simp only [Finset.mem_union, Finset.mem_insert]
  tauto

/-- The edge set the path-case `g_plus` child carries is the edge set of
the matching its parent recorded. -/
lemma edgeFS_path_plus_carry {g : Graph} {mtch add_e : List (ℕ × ℕ)}
    {eU eM : ℕ × ℕ} {p : List ℕ} (hwf : WF g) (hMI : MInv g mtch add_e)
    (hs : PathSel g mtch eU eM p) :
    edgeFS (matchInG ((g.removeNode eU.1).removeNode eU.2)
        (toggleNewMatch g (formDirected g mtch) (pathArcs p) ++ add_e) ++
        (eU :: add_e)) =
      edgeFS (toggleNewMatch g (formDirected g mtch) (pathArcs p) ++ add_e) := by
  rw [matchInG_path_plus hwf hMI.oriented hMI.valid hMI hs,
    edgeFS_append, edgeFS_append, edgeFS_cons,
    edgeFS_filter_ne (swap_eU_mem_toggle hs), normEdge_swap]
  ext x
  simp only [Finset.mem_union, Finset.mem_insert]
  tauto

/-- Master invariant of the recursion: starting from a well-formed state,
every matching appended to the accumulator is a valid matching of the
forced edges plus cross edges of the current graph, has the carried
cardinality, differs as an edge set from the carried matching, and all
appended matchings are pairwise distinct as edge sets. -/
lemma iterO_master :
    ∀ (fuel : ℕ) (g : Graph) (mtch : List (ℕ × ℕ))
      (all : List (List (ℕ × ℕ))) (add_e : List (ℕ × ℕ))
      (res : List (List (ℕ × ℕ))),
      WF g → MInv g mtch add_e →
      enumMaximumMatchingIterO fuel g mtch all add_e = some res →
      ∃ t, res = all ++ t ∧ (∀ m ∈ t, NewOut g mtch add_e m) ∧
        t.Pairwise (fun m1 m2 => edgeFS m1 ≠ edgeFS m2) := by
  intro fuel
  induction fuel with
  | zero =>
    intro g mtch all add_e res _ _ h
    rw [iterO_zero] at h
    exact absurd h (by simp)
  | succ fuel ih =>
    intro g mtch all add_e res hwf hMI h
    cases hc : findCycleModel (formDirected g mtch) with
    | some cyc =>
      have hcy := findCycleModel_sound hc
      cases he : (mtch.filter (fun p => p ∈ cycArcs cyc)).head? with
      | none =>
        obtain ⟨e, he'⟩ := pickCycleE_exists hwf hMI.oriented hMI.valid hcy
        rw [he'] at he
        exact absurd he (by simp)
      | some e =>
        rw [iterO_cycle_some hc he] at h
        obtain ⟨r1, h1, h2⟩ := Option.bind_eq_some.mp h
        obtain ⟨hm, hon, heM, hb1, hb2, hin⟩ :=
          pickCycleE_spec hwf hMI.oriented hcy he
        have hwfA := hwf.removeEdge e.1 e.2
        have hMIA := MInv_cycle_minus hwf hMI hcy he
        have hwfB := (hwf.removeNode e.1).removeNode e.2
        have hMIB := MInv_cycle_plus hwf hMI hcy he
        obtain ⟨tA, rfl, hA, hApw⟩ := ih _ _ _ _ _ hwfA hMIA h1
        obtain ⟨tB, rfl, hB, hBpw⟩ := ih _ _ _ _ _ hwfB hMIB h2
        -- notation
        have hMapA := matchInG_cycle_minus hwf hMI hcy he
        have hTlen := toggle_cycle_length hwf hMI.oriented hMI.valid hcy
        obtain ⟨hBlen, -⟩ :=
          matchInG_cycle_plus_length hwf hMI.oriented hMI.valid hcy he
        have hMpos : 0 < (matchInG g mtch).length := List.length_pos.mpr
          (fun hnil => by rw [hnil] at heM; exact List.not_mem_nil e heM)
        -- the recorded matching
        have hrecOF : OutForm g add_e
            (toggleNewMatch g (formDirected g mtch) (cycArcs cyc) ++ add_e) := by
          refine ⟨recorded_isMatching hMI
            (toggle_cycle_isMatching hwf hMI.oriented hMI.valid hcy)
            (fun q hq => toggle_oriented hwf hMI.oriented hq), _, rfl, ?_⟩
          intro q hq
          obtain ⟨hq1, hq2, hq3⟩ := toggle_oriented hwf hMI.oriented hq
          exact ⟨hq3, Or.inl ⟨hq1, hq2⟩⟩
        have hrecNotE : normEdge e ∉ edgeFS
            (toggleNewMatch g (formDirected g mtch) (cycArcs cyc) ++ add_e) := by
          intro hx
          obtain ⟨q, hq, hqe⟩ := mem_edgeFS.mp hx
          rcases List.mem_append.mp hq with hq | hq
          · exact cycle_e_not_in_toggle hwf hMI.oriented hMI.valid hcy he q hq hqe
          · exact add_e_normEdge_ne hMI hin q hq hqe
        have hFhasE : normEdge e ∈ edgeFS (matchInG g mtch ++ add_e) :=
          edgeFS_mem (List.mem_append.mpr (Or.inl heM))
        have hrecNew : NewOut g mtch add_e
            (toggleNewMatch g (formDirected g mtch) (cycArcs cyc) ++ add_e) := by
          refine ⟨hrecOF, ?_, ?_⟩
          · rw [List.length_append, hTlen]
          · intro hEq
            rw [hEq] at hrecNotE
            exact hrecNotE hFhasE
        -- branch A members
        have hAnotE : ∀ m ∈ tA, normEdge e ∉ edgeFS m := fun m hmA =>
          notmem_edgeFS_of_removeEdge hMI hin ((hA m hmA).1)
        have hAnew : ∀ m ∈ tA, NewOut g mtch add_e m := by
          intro m hmA
          obtain ⟨hOF, hlen, hne⟩ := hA m hmA
          refine ⟨hOF.of_removeEdge, ?_, ?_⟩
          · rw [hlen, hMapA, hTlen]
          · intro hEq
            have hnm := hAnotE m hmA
            rw [hEq] at hnm
            exact hnm hFhasE
        -- branch B members
        have hBhasE : ∀ m ∈ tB, normEdge e ∈ edgeFS m := by
          intro m hmB
          obtain ⟨-, s, rfl, -⟩ := (hB m hmB).1
          exact edgeFS_mem (List.mem_append.mpr (Or.inr (List.mem_cons_self e add_e)))
        have hBnew : ∀ m ∈ tB, NewOut g mtch add_e m := by
          intro m hmB
          obtain ⟨hOF, hlen, hne⟩ := hB m hmB
          refine ⟨hOF.of_removeNode_cons hin (Or.inl ⟨hb1, hb2⟩), ?_, ?_⟩
          · rw [hlen, hBlen, List.length_cons]
            omega
          · rw [edgeFS_cycle_plus_carry hwf hMI hcy he] at hne
            exact hne
        -- assemble
        refine ⟨(toggleNewMatch g (formDirected g mtch) (cycArcs cyc) ++ add_e)
          :: (tA ++ tB), by simp, ?_, ?_⟩
        · intro m hmT
          rcases List.mem_cons.mp hmT with rfl | hmT
          · exact hrecNew
          · rcases List.mem_append.mp hmT with hmT | hmT
            · exact hAnew m hmT
            · exact hBnew m hmT
        · refine List.Pairwise.cons ?_ (List.pairwise_append.mpr
            ⟨hApw, hBpw, ?_⟩)
          · intro m hmT
            rcases List.mem_append.mp hmT with hmT | hmT
            · have := (hA m hmT).2.2
              rw [hMapA] at this
              exact this.symm
            · intro hEq
              rw [hEq] at hrecNotE
              exact hrecNotE (hBhasE m hmT)
          · intro m1 hm1 m2 hm2 hEq
            have hhas := hBhasE m2 hm2
            rw [← hEq] at hhas
            exact hAnotE m1 hm1 hhas
    | none =>
      cases hp : findFeasiblePath g (formDirected g mtch) (uncovList g mtch) with
      | none =>
        rw [iterO_terminal hc hp] at h
        refine ⟨[], by simp [(Option.some_inj.mp h).symm], by simp, by simp⟩
      | some pth =>
        obtain ⟨eU, eM, hs⟩ := findFeasiblePath_pathSel hwf hMI.oriented
          uncovList_sound hp
        cases he : ((pathArcs pth).filter (fun q => q ∉ mtch)).head? with
        | none =>
          rw [pickPathE_eq hs] at he
          exact absurd he (by simp)
        | some e =>
          rw [pickPathE_eq hs] at he
          obtain rfl : eU = e := Option.some_inj.mp he
          rw [iterO_path_some hc hp (pickPathE_eq hs)] at h
          obtain ⟨r1, h1, h2⟩ := Option.bind_eq_some.mp h
          have hwfA := hwf.removeEdge eU.1 eU.2
          have hMIA := MInv_path_minus hwf hMI hs
          have hwfB := (hwf.removeNode eU.1).removeNode eU.2
          have hMIB := MInv_path_plus hwf hMI hs
          obtain ⟨tA, rfl, hA, hApw⟩ := ih _ _ _ _ _ hwfA hMIA h1
          obtain ⟨tB, rfl, hB, hBpw⟩ := ih _ _ _ _ _ hwfB hMIB h2
          have hMapA := matchInG_path_minus hs
          have hTlen := toggle_path_length hwf hMI.oriented hMI.valid hs
          have hBlen := matchInG_path_plus_length hwf hMI.oriented hMI.valid hMI hs
          have hMpos : 0 < (matchInG g mtch).length := List.length_pos.mpr
            (fun hnil => by
              have := hs.memM
              rw [hnil] at this
              exact List.not_mem_nil eM this)
          have hinU : inG g eU := (arc_spec hwf hMI.oriented hs.hU).1
          -- the recorded matching
          have hrecOF : OutForm g add_e
              (toggleNewMatch g (formDirected g mtch) (pathArcs pth) ++ add_e) := by
            refine ⟨recorded_isMatching hMI
              (toggle_path_isMatching hwf hMI.oriented hMI.valid hs)
              (fun q hq => toggle_oriented hwf hMI.oriented hq), _, rfl, ?_⟩
            intro q hq
            obtain ⟨hq1, hq2, hq3⟩ := toggle_oriented hwf hMI.oriented hq
            exact ⟨hq3, Or.inl ⟨hq1, hq2⟩⟩
          have hrecHasU : normEdge eU ∈ edgeFS
              (toggleNewMatch g (formDirected g mtch) (pathArcs pth) ++ add_e) := by
            have hmem : (eU.2, eU.1) ∈
                toggleNewMatch g (formDirected g mtch) (pathArcs pth) ++ add_e :=
              List.mem_append.mpr (Or.inl (swap_eU_mem_toggle hs))
            have := edgeFS_mem hmem
            rw [normEdge_swap] at this
            exact this
          have hFnotU : normEdge eU ∉ edgeFS (matchInG g mtch ++ add_e) := by
            intro hx
            obtain ⟨q, hq, hqe⟩ := mem_edgeFS.mp hx
            rcases List.mem_append.mp hq with hq | hq
            · exact eU_edge_not_in_mtch hs q (List.mem_filter.mp hq).1 hqe
            · exact add_e_normEdge_ne hMI hinU q hq hqe
          have hrecNew : NewOut g mtch add_e
              (toggleNewMatch g (formDirected g mtch) (pathArcs pth) ++ add_e) := by
            refine ⟨hrecOF, ?_, ?_⟩
            · rw [List.length_append, hTlen]
            · intro hEq
              rw [hEq] at hrecHasU
              exact hFnotU hrecHasU
          -- branch A members
          have hAnotU : ∀ m ∈ tA, normEdge eU ∉ edgeFS m := fun m hmA =>
            notmem_edgeFS_of_removeEdge hMI hinU ((hA m hmA).1)
          have hAnew : ∀ m ∈ tA, NewOut g mtch add_e m := by
            intro m hmA
            obtain ⟨hOF, hlen, hne⟩ := hA m hmA
            refine ⟨hOF.of_removeEdge, ?_, ?_⟩
            · rw [hlen, hMapA]
            · rw [hMapA] at hne
              exact hne
          -- branch B members
          have hBhasU : ∀ m ∈ tB, normEdge eU ∈ edgeFS m := by
            intro m hmB
            obtain ⟨-, s, rfl, -⟩ := (hB m hmB).1
            exact edgeFS_mem (List.mem_append.mpr
              (Or.inr (List.mem_cons_self eU add_e)))
          have hBnew : ∀ m ∈ tB, NewOut g mtch add_e m := by
            intro m hmB
            obtain ⟨hOF, hlen, hne⟩ := hB m hmB
            refine ⟨hOF.of_removeNode_cons hinU (Or.inr ⟨hs.hU1, hs.hU2⟩), ?_, ?_⟩
            · rw [hlen, hBlen, List.length_cons]
              omega
            · intro hEq
              have hhas := hBhasU m hmB
              rw [hEq] at hhas
              exact hFnotU hhas
          -- distinctness of branch B members from the recorded matching
          have hBnotRec : ∀ m ∈ tB, edgeFS m ≠ edgeFS
              (toggleNewMatch g (formDirected g mtch) (pathArcs pth) ++ add_e) := by
            intro m hmB
            have hne := (hB m hmB).2.2
            rw [edgeFS_path_plus_carry hwf hMI hs] at hne
            exact hne
          -- assemble
          refine ⟨(toggleNewMatch g (formDirected g mtch) (pathArcs pth) ++ add_e)
            :: (tA ++ tB), by simp, ?_, ?_⟩
          · intro m hmT
            rcases List.mem_cons.mp hmT with rfl | hmT
            · exact hrecNew
            · rcases List.mem_append.mp hmT with hmT | hmT
              · exact hAnew m hmT
              · exact hBnew m hmT
          · refine List.Pairwise.cons ?_ (List.pairwise_append.mpr
              ⟨hApw, hBpw, ?_⟩)
            · intro m hmT
              rcases List.mem_append.mp hmT with hmT | hmT
              · intro hEq
                rw [hEq] at hrecHasU
                exact hAnotU m hmT hrecHasU
              · exact fun hEq => hBnotRec m hmT hEq.symm
            · intro m1 hm1 m2 hm2 hEq
              have hnm := hAnotU m1 hm1
              rw [hEq] at hnm
              exact hnm (hBhasU m2 hm2)

section InitialMatching

variable {g : Graph}

lemma candEdges_inG : ∀ p ∈ candEdges g, inG g p := by
  intro p hp
  obtain ⟨ee, hee, hpe⟩ := List.mem_map.mp hp
  rw [← hpe]
  split
  · exact Or.inl hee
  · exact Or.inr (by simpa using hee)

lemma candEdges_left (hwf : WF g) :
    ∀ p ∈ candEdges g, g.bip p.1 = 0 ∧ g.bip p.2 ≠ 0 := by
  intro p hp
  obtain ⟨ee, hee, hpe⟩ := List.mem_map.mp hp
  rcases hwf.cross ee hee with ⟨h1, h2⟩ | ⟨h1, h2⟩
  · rw [← hpe, if_pos h1]; exact ⟨h1, h2⟩
  · rw [← hpe, if_neg h1]; exact ⟨h2, h1⟩

/-- The longest-so-far fold returns its seed or a list element, no shorter
than the seed and no shorter than any element. -/
lemma foldl_best_spec :
    ∀ (L : List (List (ℕ × ℕ))) (a : List (ℕ × ℕ)),
      (L.foldl (fun best c => if best.length < c.length then c else best) a = a ∨
        L.foldl (fun best c => if best.length < c.length then c else best) a ∈ L) ∧
      a.length ≤
        (L.foldl (fun best c => if best.length < c.length then c else best) a).length ∧
      ∀ c ∈ L, c.length ≤
        (L.foldl (fun best c => if best.length < c.length then c else best) a).length := by
  intro L
  induction L with
  | nil => intro a; exact ⟨Or.inl rfl, le_refl _, by simp⟩
  | cons x L ih =>
    intro a
    simp only [List.foldl_cons]
    obtain ⟨hmem, hge, hub⟩ := ih (if a.length < x.length then x else a)
    have hinit : a.length ≤ (if a.length < x.length then x else a).length ∧
        x.length ≤ (if a.length < x.length then x else a).length := by
      constructor <;> (split <;> omega)
    refine ⟨?_, le_trans hinit.1 hge, ?_⟩
    · rcases hmem with h | h
      · rw [h]
        split
        · exact Or.inr (List.mem_cons_self x L)
        · exact Or.inl rfl
      · exact Or.inr (List.mem_cons_of_mem x h)
    · intro c hc
      rcases List.mem_cons.mp hc with rfl | hc
      · exact le_trans hinit.2 hge
      · exact hub c hc

lemma foldl_max_le {l : List ℕ} : ∀ {a b : ℕ}, a ≤ b → (∀ x ∈ l, x ≤ b) →
    l.foldl max a ≤ b := by
  induction l with
  | nil => intro a b ha _; simpa using ha
  | cons y l ih =>
    intro a b ha h
    simp only [List.foldl_cons]
    exact ih (max_le ha (h y (List.mem_cons_self y l)))
      (fun x hx => h x (List.mem_cons_of_mem y hx))

lemma le_foldl_max_init {l : List ℕ} : ∀ {a : ℕ}, a ≤ l.foldl max a := by
  induction l with
  | nil => intro a; simp
  | cons y l ih =>
    intro a
    simp only [List.foldl_cons]
    exact le_trans (le_max_left a y) ih

lemma le_foldl_max : ∀ (l : List ℕ) (x : ℕ), x ∈ l → ∀ a : ℕ, x ≤ l.foldl max a := by
  intro l
  induction l with
  | nil => intro x hx; exact absurd hx (List.not_mem_nil x)
  | cons y l ih =>
    intro x hx a
    simp only [List.foldl_cons]
    rcases List.mem_cons.mp hx with rfl | hx'
    · exact le_trans (le_max_right a x) le_foldl_max_init
    · exact ih x hx' (max a y)

lemma bruteMaxMatching_cases (g : Graph) :
    bruteMaxMatching g = [] ∨
      bruteMaxMatching g ∈
        (candEdges g).sublists.filter (fun c => decide (isMatching c)) := by
  rw [bruteMaxMatching]
  exact (foldl_best_spec _ []).1

lemma bruteMaxMatching_isMatching (g : Graph) :
    isMatching (bruteMaxMatching g) := by
  rcases bruteMaxMatching_cases g with h | h
  · rw [h]; exact ⟨List.Pairwise.nil, by simp⟩
  · have := (List.mem_filter.mp h).2
    simpa using this

lemma bruteMaxMatching_sublist (g : Graph) :
    (bruteMaxMatching g).Sublist (candEdges g) := by
  rcases bruteMaxMatching_cases g with h | h
  · rw [h]; exact List.nil_sublist _
  · exact List.mem_sublists.mp (List.mem_filter.mp h).1

/-- The maximum matching number is the length of the brute-force maximum
matching. -/
lemma nuMax_eq_brute (g : Graph) : nuMax g = (bruteMaxMatching g).length := by
  rw [nuMax, bruteMaxMatching]
  obtain ⟨hmem, -, hub⟩ := foldl_best_spec
    ((candEdges g).sublists.filter (fun c => decide (isMatching c))) []
  apply le_antisymm
  · refine foldl_max_le (Nat.zero_le _) ?_
    intro x hx
    obtain ⟨c, hc, rfl⟩ := List.mem_map.mp hx
    exact hub c hc
  · rcases hmem with hEq | hmem
    · rw [hEq]
      exact Nat.zero_le _
    · exact le_foldl_max _ _ (List.mem_map.mpr ⟨_, hmem, rfl⟩) 0

/-- The `bipartite == 0` key filter of source lines 89-93 recovers exactly
the left-oriented maximum matching from the two-way partner map. -/
lemma hk_filter_eq (hwf : WF g) :
    (hopcroft_karp_matching_model g).filter (fun kv => g.bip kv.1 == 0) =
      bruteMaxMatching g := by
  rw [hopcroft_karp_matching_model, List.filter_append]
  have h1 : (bruteMaxMatching g).filter (fun kv => g.bip kv.1 == 0) =
      bruteMaxMatching g := by
    refine List.filter_eq_self.mpr ?_
    intro p hp
    have := (candEdges_left hwf p ((bruteMaxMatching_sublist g).subset hp)).1
    simpa using this
  have h2 : ((bruteMaxMatching g).map (fun p => (p.2, p.1))).filter
      (fun kv => g.bip kv.1 == 0) = [] := by
    refine List.filter_eq_nil_iff.mpr ?_
    intro q hq
    obtain ⟨p, hp, rfl⟩ := List.mem_map.mp hq
    have := (candEdges_left hwf p ((bruteMaxMatching_sublist g).subset hp)).2
    simpa using this
  rw [h1, h2, List.append_nil]

lemma matchInG_brute (g : Graph) :
    matchInG g (bruteMaxMatching g) = bruteMaxMatching g := by
  refine List.filter_eq_self.mpr ?_
  intro p hp
  simpa using candEdges_inG p ((bruteMaxMatching_sublist g).subset hp)

/-- The invariants hold at the recursion's entry state. -/
lemma MInv_init (hwf : WF g) : MInv g (bruteMaxMatching g) [] where
  oriented := fun p hp _ =>
    (candEdges_left hwf p ((bruteMaxMatching_sublist g).subset hp)).1
  valid := by rw [matchInG_brute g]; exact bruteMaxMatching_isMatching g
  add_valid := ⟨List.Pairwise.nil, by simp⟩
  add_cross := by simp
  add_off := by simp

/-- The one fact the claim theorems read off the whole run: the output is
the brute-force maximum matching followed by recorded matchings of the
master invariant, pairwise distinct as edge sets. -/
lemma enumMaximumMatching_run (g : Graph) (hwf : WF g) :
    ∃ t, enumMaximumMatching g = bruteMaxMatching g :: t ∧
      (∀ m ∈ t, NewOut g (bruteMaxMatching g) [] m) ∧
      t.Pairwise (fun m1 m2 => edgeFS m1 ≠ edgeFS m2) := by
  have hrw : enumMaximumMatching g =
      enumMaximumMatchingIter g
        ((hopcroft_karp_matching_model g).filter (fun kv => g.bip kv.1 == 0))
        [(hopcroft_karp_matching_model g).filter (fun kv => g.bip kv.1 == 0)]
        [] := rfl
  rw [hk_filter_eq hwf] at hrw
  obtain ⟨res, hres⟩ := Option.isSome_iff_exists.mp
    (iterO_isSome (g.edges.length + 1) g (bruteMaxMatching g)
      [bruteMaxMatching g] [] (Nat.lt_succ_self _))
  obtain ⟨t, rfl, hnew, hpw⟩ :=
    iterO_master _ _ _ _ _ _ hwf (MInv_init hwf) hres
  refine ⟨t, ?_, hnew, hpw⟩
  rw [hrw, enumMaximumMatchingIter, hres]
  rfl

end InitialMatching

/-- The complete bipartite graph K(2,2): left side 0,1, right side 2,3. -/
def K22 : Graph := ⟨[0, 1, 2, 3], fun v => if v ≤ 1 then 0 else 1,
  [(0, 2), (0, 3), (1, 2), (1, 3)]⟩

/-- The path 0 - 1 - 2: left side 0,2, right side 1. -/
def P3 : Graph := ⟨[0, 1, 2], fun v => if v = 1 then 1 else 0,
  [(0, 1), (2, 1)]⟩

/-- The complete bipartite graph K(2,3): left side 0,1, right side 2,3,4. -/
def K23 : Graph := ⟨[0, 1, 2, 3, 4], fun v => if v ≤ 1 then 0 else 1,
  [(0, 2), (0, 3), (0, 4), (1, 2), (1, 3), (1, 4)]⟩

/-- Two disjoint paths 0 - 1 - 2 and 3 - 4 - 5: right side 1,4. -/
def twoPathsG : Graph :=
  ⟨[0, 1, 2, 3, 4, 5], fun v => if v = 1 ∨ v = 4 then 1 else 0,
    [(0, 1), (1, 2), (3, 4), (4, 5)]⟩

/-- A non-bipartite input: one edge joining two side-0 vertices. -/
def sameSideG : Graph := ⟨[0, 1], fun _ => 0, [(0, 1)]⟩

/-- The graph with zero vertices. -/
def emptyG : Graph := ⟨[], fun _ => 0, []⟩

/-- Modelled from the spec: the claimed InvalidGraph entry check — reject
(`none`) any input with an edge whose endpoints lie on the same side before
the recursion starts, and otherwise behave as the source does. -/
def enumMaximumMatchingChecked (g : Graph) : Option (List (List (ℕ × ℕ))) :=
  if g.edges.any (fun ee => g.bip ee.1 == g.bip ee.2) then none
  else some (enumMaximumMatching g)

set_option maxRecDepth 8000

/-- C1: for every well-formed bipartite graph (with the external
Hopcroft-Karp collaborator modelled by its contract), every matching in
the list returned by `enumMaximumMatching` is internally valid and its
cardinality equals the graph's maximum matching number, which is the
cardinality of the first matching in the list. -/
theorem C1_outputs_valid_maximum (g : Graph) (hwf : WF g) :
    ∀ m ∈ enumMaximumMatching g,
      isMatching m ∧ m.length = nuMax g ∧
      m.length = (enumMaximumMatching g).headI.length := by
  obtain ⟨t, heq, hnew, -⟩ := enumMaximumMatching_run g hwf
  have hhead : (enumMaximumMatching g).headI = bruteMaxMatching g := by
    rw [heq]
    rfl
  intro m hm
  rw [heq] at hm
  rcases List.mem_cons.mp hm with rfl | hm
  · exact ⟨bruteMaxMatching_isMatching g, (nuMax_eq_brute g).symm, by rw [hhead]⟩
  · obtain ⟨⟨hval, -⟩, hlen, -⟩ := hnew m hm
    have hlen' : m.length = (bruteMaxMatching g).length := by
      rw [hlen, matchInG_brute]
      simp
    exact ⟨hval, by rw [hlen', nuMax_eq_brute], by rw [hhead, hlen']⟩

/-- Closed instance of C1 on K(2,2). -/
theorem C1_outputs_valid_maximum_witness :
    isMatching [((0 : ℕ), (3 : ℕ)), (1, 2)] ∧
    ([((0 : ℕ), (3 : ℕ)), (1, 2)]).length = nuMax K22 ∧
    ([((0 : ℕ), (3 : ℕ)), (1, 2)]).length =
      (enumMaximumMatching K22).headI.length :=
  C1_outputs_valid_maximum K22 ⟨by decide, by decide, by decide, by decide⟩
    [(0, 3), (1, 2)] (by decide)

/-- C3: for every well-formed bipartite graph, no two matchings returned
by `enumMaximumMatching` are equal as edge sets. -/
theorem C3_outputs_pairwise_distinct (g : Graph) (hwf : WF g) :
    (enumMaximumMatching g).Pairwise (fun m1 m2 => edgeFS m1 ≠ edgeFS m2) := by
  obtain ⟨t, heq, hnew, hpw⟩ := enumMaximumMatching_run g hwf
  rw [heq]
  refine List.Pairwise.cons ?_ hpw
  intro m hm hEq
  have hne := (hnew m hm).2.2
  rw [matchInG_brute, List.append_nil] at hne
  exact hne hEq.symm

/-- Closed instance of C3 on the path graph P3. -/
theorem C3_outputs_pairwise_distinct_witness :
    (enumMaximumMatching P3).Pairwise (fun m1 m2 => edgeFS m1 ≠ edgeFS m2) :=
  C3_outputs_pairwise_distinct P3 ⟨by decide, by decide, by decide, by decide⟩

/-- C4 (amended): the child calls the recursion actually makes.  In the
acyclic length-2-path case they are as the claim states (branch A: graph
minus the selected edge `e`, matching unchanged, forced edges unchanged;
branch B: graph minus both endpoints of `e`, matching `new_match`, `e`
forced).  In the cycle case the matchings are swapped (source lines
244-245): branch A receives `new_match` and branch B the unchanged
matching. -/
theorem C4_actual_children :
    (∀ (fuel : ℕ) (g : Graph) (mtch : List (ℕ × ℕ))
       (all : List (List (ℕ × ℕ))) (add_e : List (ℕ × ℕ))
       (cyc : List ℕ) (e : ℕ × ℕ),
       findCycleModel (formDirected g mtch) = some cyc →
       (mtch.filter (fun p => p ∈ cycArcs cyc)).head? = some e →
       enumMaximumMatchingIterO (fuel + 1) g mtch all add_e =
         (enumMaximumMatchingIterO fuel (g.removeEdge e.1 e.2)
             (toggleNewMatch g (formDirected g mtch) (cycArcs cyc) ++ add_e)
             (all ++ [toggleNewMatch g (formDirected g mtch) (cycArcs cyc) ++ add_e])
             add_e).bind
           (fun r1 => enumMaximumMatchingIterO fuel
             ((g.removeNode e.1).removeNode e.2) mtch r1 (e :: add_e))) ∧
    (∀ (fuel : ℕ) (g : Graph) (mtch : List (ℕ × ℕ))
       (all : List (List (ℕ × ℕ))) (add_e : List (ℕ × ℕ))
       (pth : List ℕ) (e : ℕ × ℕ),
       findCycleModel (formDirected g mtch) = none →
       findFeasiblePath g (formDirected g mtch) (uncovList g mtch) = some pth →
       ((pathArcs pth).filter (fun q => q ∉ mtch)).head? = some e →
       enumMaximumMatchingIterO (fuel + 1) g mtch all add_e =
         (enumMaximumMatchingIterO fuel (g.removeEdge e.1 e.2) mtch
             (all ++ [toggleNewMatch g (formDirected g mtch) (pathArcs pth) ++ add_e])
             add_e).bind
           (fun r1 => enumMaximumMatchingIterO fuel
             ((g.removeNode e.1).removeNode e.2)
             (toggleNewMatch g (formDirected g mtch) (pathArcs pth) ++ add_e)
             r1 (e :: add_e))) :=
  ⟨fun _ _ _ _ _ _ _ hc he => iterO_cycle_some hc he,
   fun _ _ _ _ _ _ _ hc hp he => iterO_path_some hc hp he⟩

/-- Closed instances of the two branch equations of `C4_actual_children`,
on K(2,2) (cycle case) and P3 (path case). -/
theorem C4_actual_children_witness :
    (enumMaximumMatchingIterO 5 K22 [(0, 2), (1, 3)] [[(0, 2), (1, 3)]] [] =
      (enumMaximumMatchingIterO 4 (K22.removeEdge 0 2)
          (toggleNewMatch K22 (formDirected K22 [(0, 2), (1, 3)])
            (cycArcs [0, 2, 1, 3]) ++ [])
          ([[(0, 2), (1, 3)]] ++
            [toggleNewMatch K22 (formDirected K22 [(0, 2), (1, 3)])
              (cycArcs [0, 2, 1, 3]) ++ []])
          []).bind
        (fun r1 => enumMaximumMatchingIterO 4 ((K22.removeNode 0).removeNode 2)
          [(0, 2), (1, 3)] r1 ((0, 2) :: []))) ∧
    (enumMaximumMatchingIterO 5 P3 [(0, 1)] [[(0, 1)]] [] =
      (enumMaximumMatchingIterO 4 (P3.removeEdge 1 2) [(0, 1)]
          ([[(0, 1)]] ++
            [toggleNewMatch P3 (formDirected P3 [(0, 1)])
              (pathArcs [0, 1, 2]) ++ []])
          []).bind
        (fun r1 => enumMaximumMatchingIterO 4 ((P3.removeNode 1).removeNode 2)
          (toggleNewMatch P3 (formDirected P3 [(0, 1)]) (pathArcs [0, 1, 2]) ++ [])
          r1 ((1, 2) :: []))) :=
  ⟨C4_actual_children.1 4 K22 [(0, 2), (1, 3)] [[(0, 2), (1, 3)]] []
      [0, 2, 1, 3] (0, 2) (by decide) (by decide),
   C4_actual_children.2 4 P3 [(0, 1)] [[(0, 1)]] [] [0, 1, 2] (1, 2)
      (by decide) (by decide) (by decide)⟩

/-- C4 counterexample: the claimed identical two-way split is wrong for the
cycle case.  Branch A carrying the unchanged matching (as claimed) gives a
different result on K(2,3) than the source's recursion — it would even
record the non-maximum matching [(1,4)]. -/
theorem C4_claimed_split_counterexample :
    ¬ (∀ (fuel : ℕ) (g : Graph) (mtch : List (ℕ × ℕ))
        (all : List (List (ℕ × ℕ))) (add_e : List (ℕ × ℕ))
        (cyc : List ℕ) (e : ℕ × ℕ),
        findCycleModel (formDirected g mtch) = some cyc →
        (mtch.filter (fun p => p ∈ cycArcs cyc)).head? = some e →
        enumMaximumMatchingIterO (fuel + 1) g mtch all add_e =
          (enumMaximumMatchingIterO fuel (g.removeEdge e.1 e.2) mtch
              (all ++ [toggleNewMatch g (formDirected g mtch) (cycArcs cyc) ++ add_e])
              add_e).bind
            (fun r1 => enumMaximumMatchingIterO fuel
              ((g.removeNode e.1).removeNode e.2)
              (toggleNewMatch g (formDirected g mtch) (cycArcs cyc) ++ add_e)
              r1 (e :: add_e))) := by
  intro hclaim
  have h := hclaim 6 K23 [(0, 2), (1, 3)] [[(0, 2), (1, 3)]] []
    [0, 2, 1, 3] (0, 2) (by decide) (by decide)
  exact absurd h (by decide)

/-- C5 (amended): `enumMaximumMatching` performs no bipartiteness check —
on a same-side-edge input it proceeds into the recursion and can even
return a registry containing an invalid matching. -/
theorem C5_processes_nonbipartite :
    ∃ m ∈ enumMaximumMatching sameSideG, ¬ isMatching m := by decide

/-- C5 counterexample: the spec's claimed entry check rejects the
same-side-edge input, while the source's function returns a normal,
non-empty registry on it. -/
theorem C5_not_rejected_counterexample :
    (∃ ee ∈ sameSideG.edges, sameSideG.bip ee.1 = sameSideG.bip ee.2) ∧
    enumMaximumMatchingChecked sameSideG = none ∧
    enumMaximumMatching sameSideG = [[(0, 1), (1, 0)]] := by decide

/-- C6: on the graph with zero vertices the function returns normally,
with exactly one matching, the empty one. -/
theorem C6_empty_graph_single_empty_matching :
    enumMaximumMatching emptyG = [[]] := by decide

/-- C7 (amended): every pair of every returned matching joins the two
sides (one endpoint of bipartite attribute 0, one of nonzero attribute) —
but, per the counterexample, not always in the order (left, right). -/
theorem C7_pairs_cross (g : Graph) (hwf : WF g) :
    ∀ m ∈ enumMaximumMatching g, ∀ p ∈ m,
      (g.bip p.1 = 0 ∧ g.bip p.2 ≠ 0) ∨ (g.bip p.1 ≠ 0 ∧ g.bip p.2 = 0) := by
  obtain ⟨t, heq, hnew, -⟩ := enumMaximumMatching_run g hwf
  intro m hm p hp
  rw [heq] at hm
  rcases List.mem_cons.mp hm with rfl | hm
  · obtain ⟨h1, h2⟩ := candEdges_left hwf p ((bruteMaxMatching_sublist g).subset hp)
    exact Or.inl ⟨h1, h2⟩
  · obtain ⟨⟨-, s, rfl, hs⟩, -, -⟩ := hnew m hm
    rcases List.mem_append.mp hp with hp | hp
    · exact (hs p hp).2
    · exact absurd hp (List.not_mem_nil p)

/-- Closed instance of C7 on K(2,2). -/
theorem C7_pairs_cross_witness :
    (K22.bip 0 = 0 ∧ K22.bip 3 ≠ 0) ∨ (K22.bip 0 ≠ 0 ∧ K22.bip 3 = 0) :=
  C7_pairs_cross K22 ⟨by decide, by decide, by decide, by decide⟩
    [(0, 3), (1, 2)] (by decide) (0, 3) (by decide)

/-- C7 counterexample: on two disjoint length-2 paths the returned
registry contains a matching with the forced pair (1,2) ordered
(rightVertex, leftVertex), so the pairs are not uniformly ordered
(leftVertex, rightVertex). -/
theorem C7_ordered_pair_counterexample :
    ∃ m ∈ enumMaximumMatching twoPathsG, ∃ p ∈ m,
      ¬ (twoPathsG.bip p.1 = 0 ∧ twoPathsG.bip p.2 = 1) := by decide

/-- C8: with fuel one more than the number of edges the embedded recursion
always completes (each recursive call strictly decreases the edge count of
the active graph, so the recursion depth is bounded by the number of edges
of the original graph). -/
theorem C8_fuel_edges_sufficient :
    ∀ (g : Graph) (mtch : List (ℕ × ℕ)) (all : List (List (ℕ × ℕ)))
      (add_e : List (ℕ × ℕ)),
      (enumMaximumMatchingIterO (g.edges.length + 1) g mtch all add_e).isSome :=
  fun g mtch all add_e =>
    iterO_isSome (g.edges.length + 1) g mtch all add_e (Nat.lt_succ_self _)

/-- C10: the recursion only appends to the accumulator — the returned list
is the input `all_matches` followed by the newly recorded matchings. -/
theorem C10_accumulator_prefix :
    ∀ (g : Graph) (mtch : List (ℕ × ℕ)) (all : List (List (ℕ × ℕ)))
      (add_e : List (ℕ × ℕ)),
      ∃ t, enumMaximumMatchingIter g mtch all add_e = all ++ t := by
  intro g mtch all add_e
  obtain ⟨res, hres⟩ := Option.isSome_iff_exists.mp
    (iterO_isSome (g.edges.length + 1) g mtch all add_e (Nat.lt_succ_self _))
  obtain ⟨t, rfl⟩ := iterO_prefix _ _ _ _ _ _ hres
  refine ⟨t, ?_⟩
  rw [enumMaximumMatchingIter, hres]
  rfl
